import Mathlib

/-!
Verification development for the crossref indexing and reference-resolution
engine of `obsidian-crossref-preview` (`main.js`).

The source text is modelled as a `List Char` (one entry per UTF-16 code unit of
the JavaScript string; all inputs considered here live in the BMP, where the
two views coincide).  Each JavaScript function used by the indexing engine is
translated to a computable Lean definition:

* regular expressions (`REF_PATTERN`, `LABEL_TOKEN_PATTERN`,
  `THEOREM_START_PATTERN`, `THEOREM_END_PATTERN`, the figure pattern and the
  heading pattern) are deterministic — every quantified character class is
  disjoint from the character that follows it — so each is translated to an
  explicit matcher whose alternation order follows the regex literal;
* index-based `for` loops that jump (`i = endLine`, `i = cursor`) are
  translated to structurally recursive functions over a fuel argument; the
  fuel supplied by the top-level entry points (`lines.length`, one unit per
  loop iteration, each of which advances the index by at least one) is always
  sufficient, and the fuel-exhausted branch returns the state unchanged,
  matching loop exit;
* the `Map` of labels becomes an insertion-ordered list of descriptors, and
  the per-category theorem counters an association list.
-/

/-- JavaScript `\s` / `String.prototype.trim` whitespace class. -/
def jsWs (c : Char) : Bool :=
  c = ' ' ∨ c = '\t' ∨ c = '\n' ∨ c = '\r' ∨ c = '\x0b' ∨ c = '\x0c' ∨
    c.toNat = 0xa0 ∨ c.toNat = 0x1680 ∨
    (0x2000 ≤ c.toNat ∧ c.toNat ≤ 0x200a) ∨
    c.toNat = 0x2028 ∨ c.toNat = 0x2029 ∨ c.toNat = 0x202f ∨
    c.toNat = 0x205f ∨ c.toNat = 0x3000 ∨ c.toNat = 0xfeff

/-- The character class `[A-Za-z0-9_-]` used inside label names. -/
def labelChar (c : Char) : Bool :=
  (('A' ≤ c ∧ c ≤ 'Z') ∨ ('a' ≤ c ∧ c ≤ 'z') ∨ ('0' ≤ c ∧ c ≤ '9') ∨
    c = '_' ∨ c = '-')

/-- The word-character class `[A-Za-z0-9_]` used by the reference scanner to
reject `@` tokens embedded in identifiers. -/
def wordChar (c : Char) : Bool :=
  (('A' ≤ c ∧ c ≤ 'Z') ∨ ('a' ≤ c ∧ c ≤ 'z') ∨ ('0' ≤ c ∧ c ≤ '9') ∨ c = '_')

/-- JavaScript `String.prototype.trim` on a list of characters. -/
def jsTrim (l : List Char) : List Char :=
  ((l.dropWhile jsWs).reverse.dropWhile jsWs).reverse

/-- Match a literal character sequence at the head of the input, returning the
remainder on success. -/
def dropLit : List Char → List Char → Option (List Char)
  | [], r => some r
  | _ :: _, [] => none
  | c :: cs, d :: ds => if c = d then dropLit cs ds else none

/-- Match one alternative of `(?:alt)-[A-Za-z0-9_-]+`: the literal alternative,
a dash, then a non-empty greedy run of label characters.  Returns the captured
label (`alt-name`) and the remaining input. -/
def matchOneAlt (a : List Char) (r : List Char) : Option (List Char × List Char) :=
  match dropLit a r with
  | some ('-' :: r2) =>
    let run := r2.takeWhile labelChar
    if run.isEmpty then none
    else some (a ++ '-' :: run, r2.drop run.length)
  | _ => none

/-- Regex alternation over a list of alternatives, tried left to right exactly
as the regex engine does. -/
def matchAltLabel : List (List Char) → List Char → Option (List Char × List Char)
  | [], _ => none
  | a :: as, r =>
    match matchOneAlt a r with
    | some x => some x
    | none => matchAltLabel as r

/-- The 11 theorem-like category alternatives of `THEOREM_PREFIX_FRAGMENT`,
in the order they appear in the regex literal. -/
def thmCats : List (List Char) :=
  ["thm".data, "lem".data, "cor".data, "prp".data, "cnj".data, "def".data,
   "exm".data, "exr".data, "sol".data, "rem".data, "alg".data]

/-- All 13 label category alternatives of `PREFIX_FRAGMENT`, in regex order. -/
def allCats : List (List Char) :=
  ["eq".data, "fig".data] ++ thmCats

/-- `THEOREM_START_PATTERN` (`^:::\s*\{#(cat-name)\}\s*$`) applied to a line,
returning the captured label. -/
def thmStart? (t : List Char) : Option (List Char) :=
  match t with
  | ':' :: ':' :: ':' :: rest =>
    match rest.dropWhile jsWs with
    | '\x7b' :: '#' :: r2 =>
      match matchAltLabel thmCats r2 with
      | some (lb, '\x7d' :: r4) => if (r4.dropWhile jsWs).isEmpty then some lb else none
      | _ => none
    | _ => none
  | _ => none

/-- `THEOREM_END_PATTERN` (`^:::\s*$`) applied to an already-trimmed line. -/
def isThmEnd (t : List Char) : Bool :=
  t = [':', ':', ':']

/-- The equation label pattern `^\{#(eq-[A-Za-z0-9_-]+)\}$` applied to a
trimmed line, returning the captured label. -/
def eqLabel? (t : List Char) : Option (List Char) :=
  match t with
  | '\x7b' :: '#' :: r =>
    match matchOneAlt ("eq".data) r with
    | some (lb, '\x7d' :: r4) => if r4.isEmpty then some lb else none
    | _ => none
  | _ => none

/-- The heading pattern `^\s*#{1,6}\s+(.+)\s*$` applied to a raw line.  The
regex matches exactly when, after optional leading whitespace, a run of one to
six `#` ends at a whitespace character that is followed by at least one more
character; in every matching case the trimmed capture equals the trim of
everything after the `#` run. -/
def headingTitle? (raw : List Char) : Option (List Char) :=
  let l1 := raw.dropWhile jsWs
  let hs := l1.takeWhile (· = '#')
  let rest := l1.drop hs.length
  if 1 ≤ hs.length && hs.length ≤ 6 &&
      (match rest with | c :: _ :: _ => jsWs c | _ => false) then
    some (jsTrim rest)
  else none

/-- The figure pattern `!\[[^\]]*]\([^)]+\)\s*\{#(fig-[A-Za-z0-9_-]+)\}`
matched at the head of the input.  Returns the captured label and the total
match length.  Every quantified class in the pattern excludes the character
required next, so the greedy match is the only possible one. -/
def figMatch (l : List Char) : Option (List Char × Nat) :=
  match l with
  | '!' :: '[' :: r1 =>
    let a := r1.takeWhile (fun c => ¬ c = ']')
    match r1.drop a.length with
    | ']' :: '(' :: r3 =>
      let b := r3.takeWhile (fun c => ¬ c = ')')
      if b.isEmpty then none
      else
        match r3.drop b.length with
        | ')' :: r5 =>
          let w := r5.takeWhile jsWs
          match r5.drop w.length with
          | '\x7b' :: '#' :: r6 =>
            match matchOneAlt ("fig".data) r6 with
            | some (lb, '\x7d' :: _) =>
              some (lb, a.length + b.length + w.length + lb.length + 8)
            | _ => none
          | _ => none
        | _ => none
    | _ => none
  | _ => none

/-- `String.prototype.split` on `'\n'`. -/
def splitNl : List Char → List (List Char)
  | [] => [[]]
  | c :: rest =>
    let r := splitNl rest
    if c = '\n' then [] :: r
    else
      match r with
      | [] => [[c]]
      | h :: t => (c :: h) :: t

/-- Remove a single trailing carriage return from a line. -/
def stripCr (l : List Char) : List Char :=
  match l.getLast? with
  | some '\r' => l.dropLast
  | _ => l

/-- Apply `stripCr` to every piece except the final one.  Together with
`splitNl` this is `source.split(/\r?\n/)`: the regex splits at every `\n`,
consuming an immediately preceding `\r`, and a `\r` not followed by `\n`
stays inside its piece. -/
def stripParts : List (List Char) → List (List Char)
  | [] => []
  | [l] => [l]
  | l :: rest => stripCr l :: stripParts rest

/-- `source.split(/\r?\n/)` from `parseCrossrefIndex`. -/
def jsSplitLines (cs : List Char) : List (List Char) :=
  stripParts (splitNl cs)

/-- The newline offsets pushed by the loop body of `buildLineOffsets`:
for each `\n` at index `i`, the value `i + 1`. -/
def nlOffsets : List Char → Nat → List Nat
  | [], _ => []
  | c :: rest, i =>
    if c = '\n' then (i + 1) :: nlOffsets rest (i + 1)
    else nlOffsets rest (i + 1)

/-- `buildLineOffsets` from `main.js`: the start offset of every line. -/
def buildLineOffsets (cs : List Char) : List Nat :=
  0 :: nlOffsets cs 0

/-- The binary-search loop of `offsetToLine`.  `left` and `right` are the
JavaScript number variables (modelled as `Int`, since `right` can pass below
zero); `(left + right) >> 1` is floor division by two, which is `Int` `/`.
One fuel unit is spent per loop iteration; the interval shrinks every
iteration, so `offs.length + 1` units always suffice. -/
def otlGo (offs : List Nat) (offset : Nat) : Nat → Int → Int → Int
  | 0, _, right => right
  | fuel + 1, left, right =>
    if left ≤ right then
      if offs.getD ((left + right) / 2).toNat 0 ≤ offset then
        otlGo offs offset fuel ((left + right) / 2 + 1) right
      else otlGo offs offset fuel left ((left + right) / 2 - 1)
    else right

/-- `offsetToLine` from `main.js`: binary search for the line containing a
character offset, clamped below at zero (`Math.max(0, right)`). -/
def offsetToLine (offs : List Nat) (offset : Nat) : Nat :=
  (max 0 (otlGo offs offset (offs.length + 1) 0 ((offs.length : Int) - 1))).toNat

/-- The three top-level kinds of indexed object. -/
inductive Kind where
  | equation
  | figure
  | theoremLike
deriving DecidableEq, Repr

/-- A label descriptor as stored in the index map.  `category` is the
JavaScript `prefix` field (`label.split("-")[0]`). -/
structure Descriptor where
  label : List Char
  kind : Kind
  category : List Char
  number : Nat
  title : List Char
  lineStart : Nat
  lineEnd : Nat
deriving DecidableEq, Repr

/-- The mutable state of `parseCrossrefIndex`: the insertion-ordered label
map and the three counters.  `thmCounters` is the `theoremCounters` object,
an association list from category to count. -/
structure ParseState where
  labels : List Descriptor
  eqCount : Nat
  figCount : Nat
  thmCounters : List (List Char × Nat)
deriving DecidableEq, Repr

/-- The initial parser state: empty map, all counters zero. -/
def initState : ParseState := ⟨[], 0, 0, []⟩

/-- Look up a category in the counter table. -/
def lookupCat : List (List Char × Nat) → List Char → Option Nat
  | [], _ => none
  | (k, v) :: rest, cat => if k = cat then some v else lookupCat rest cat

/-- `theoremCounters[prefix] || 0`. -/
def getThmCount (st : ParseState) (cat : List Char) : Nat :=
  match lookupCat st.thmCounters cat with
  | some n => n
  | none => 0

/-- Store a counter value, replacing an existing binding. -/
def setAssocNat (l : List (List Char × Nat)) (k : List Char) (v : Nat) :
    List (List Char × Nat) :=
  match l with
  | [] => [(k, v)]
  | (k0, v0) :: rest =>
    if k0 = k then (k, v) :: rest else (k0, v0) :: setAssocNat rest k v

/-- `labels.get(label)` on the insertion-ordered list model. -/
def findLabel (st : ParseState) (label : List Char) : Option Descriptor :=
  st.labels.find? (fun d => d.label = label)

/-- `label.split("-")[0]`. -/
def labelCategory (label : List Char) : List Char :=
  label.takeWhile (fun c => ¬ c = '-')

/-- `addLabel` from `parseCrossrefIndex` (`main.js` lines 179-209): ignore an
already-registered label, otherwise bump the counter for the label's scope,
convert the character offsets to a line span, and append the descriptor. -/
def addLabel (offs : List Nat) (st : ParseState) (label : List Char) (kind : Kind)
    (startOffset endOffset : Nat) (title : List Char) : ParseState :=
  if st.labels.any (fun d => d.label = label) then st
  else
    let cat := labelCategory label
    let st1 : ParseState × Nat :=
      match kind with
      | Kind.equation => ({ st with eqCount := st.eqCount + 1 }, st.eqCount + 1)
      | Kind.figure => ({ st with figCount := st.figCount + 1 }, st.figCount + 1)
      | Kind.theoremLike =>
        ({ st with thmCounters := setAssocNat st.thmCounters cat (getThmCount st cat + 1) },
          getThmCount st cat + 1)
    let lineStart := offsetToLine offs startOffset
    let lineEnd := offsetToLine offs (max startOffset (endOffset - 1))
    { st1.1 with
      labels := st1.1.labels ++
        [⟨label, kind, cat, st1.2, title, lineStart, lineEnd⟩] }

/-- The late title patch of the theorem scan (`main.js` lines 303-307): find
the descriptor registered under `label` and, if its title is empty, fill it
in.  The label map holds at most one descriptor per label, so patching the
first match is `labels.get(label)`. -/
def patchTitle : List Descriptor → List Char → List Char → List Descriptor
  | [], _, _ => []
  | d :: ds, label, newTitle =>
    if d.label = label then
      (if d.title.isEmpty then { d with title := newTitle } else d) :: ds
    else d :: patchTitle ds label newTitle

/-- `fallbackTitle.replace(/^#+\s*/, "")`: strip one leading run of `#` and
the whitespace after it, when the string starts with `#`. -/
def stripHashPre (l : List Char) : List Char :=
  match l with
  | '#' :: _ => (l.dropWhile (· = '#')).dropWhile jsWs
  | _ => l

/-- Search for the next line satisfying a predicate, returning its index.
`start` is the index of the head of `suffix` in the full line list. -/
def findFromAux (p : List Char → Bool) : List (List Char) → Nat → Option Nat
  | [], _ => none
  | x :: xs, j => if p x then some j else findFromAux p xs (j + 1)

/-- A line whose trim is exactly the display-math delimiter `$$`. -/
def isDollarLine (l : List Char) : Bool :=
  jsTrim l = "$$".data

/-- The inner `for (j = i + 1; ...)` search of the equation scan: index of the
first closing `$$` line at or after `j`. -/
def findDollarFrom (lines : List (List Char)) (j : Nat) : Option Nat :=
  findFromAux isDollarLine (lines.drop j) j

/-- The `while` loop skipping blank lines after the closing `$$`. -/
def skipBlanksFrom (lines : List (List Char)) (j : Nat) : Nat :=
  j + ((lines.drop j).takeWhile (fun l => (jsTrim l).isEmpty)).length

/-- One unit of fuel is one iteration of the outer equation-scan loop
(`main.js` lines 211-245); the loop index advances by at least one per
iteration, so `lines.length` units suffice from index zero. -/
def eqScanAux (lines : List (List Char)) (offs : List Nat) (srcLen : Nat) :
    Nat → Nat → ParseState → ParseState
  | 0, _, st => st
  | fuel + 1, i, st =>
    if i < lines.length then
      if isDollarLine (lines.getD i []) then
        match findDollarFrom lines (i + 1) with
        | none => eqScanAux lines offs srcLen fuel (i + 1) st
        | some endLine =>
          let labelLine := skipBlanksFrom lines (endLine + 1)
          let st' :=
            if labelLine < lines.length then
              match eqLabel? (jsTrim (lines.getD labelLine [])) with
              | some lb =>
                let blockStartOffset := offs.getD i 0
                let blockEndOffset :=
                  if labelLine + 1 < offs.length then offs.getD (labelLine + 1) 0
                  else srcLen
                addLabel offs st lb Kind.equation blockStartOffset blockEndOffset []
              | none => st
            else st
          eqScanAux lines offs srcLen fuel (endLine + 1) st'
      else eqScanAux lines offs srcLen fuel (i + 1) st
    else st

/-- Scan the suffix of the source starting at `pos` for the first figure
match; the position accumulator tracks the index of the suffix head. -/
def findFigAux : List Char → Nat → Option (Nat × List Char × Nat)
  | [], _ => none
  | c :: rest, pos =>
    match figMatch (c :: rest) with
    | some (lb, len) => some (pos, lb, len)
    | none => findFigAux rest (pos + 1)

/-- Leftmost match of the figure pattern at or after `pos`:
`figurePattern.exec` with `lastIndex = pos`. -/
def findFigFrom (cs : List Char) (pos : Nat) : Option (Nat × List Char × Nat) :=
  findFigAux (cs.drop pos) pos

/-- The `while (match)` loop of the figure scan (`main.js` lines 247-252).
Each found match has positive length, so the scan position strictly
increases; `cs.length + 1` fuel units suffice from position zero. -/
def figScanAux (cs : List Char) (offs : List Nat) :
    Nat → Nat → ParseState → ParseState
  | 0, _, st => st
  | fuel + 1, pos, st =>
    match findFigFrom cs pos with
    | none => st
    | some (start, lb, len) =>
      figScanAux cs offs fuel (start + len)
        (addLabel offs st lb Kind.figure start (start + len) [])

/-- The inner cursor loop of the theorem scan (`main.js` lines 269-292),
recursing over the suffix of lines starting at `cursor`.  Returns
`(title, blockEndLine, cursor, implicitClosedByNextStart)` as of loop exit. -/
def thmInner (i : Nat) : List (List Char) → Nat → List Char → Nat →
    (List Char × Nat × Nat × Bool)
  | [], cursor, title, ble => (title, ble, cursor, false)
  | cur :: rest, cursor, title, _ble =>
    let title' :=
      if title.isEmpty then
        match headingTitle? cur with
        | some t => t
        | none => title
      else title
    if isThmEnd (jsTrim cur) then (title', cursor, cursor, false)
    else if (thmStart? (jsTrim cur)).isSome then
      (title', max i (cursor - 1), cursor - 1, true)
    else thmInner i rest (cursor + 1) title' cursor

/-- One iteration of the outer theorem-scan loop (`main.js` lines 254-310):
recognize a block-open marker, run the inner cursor loop, register the label,
apply the fallback-title patch when the block was implicitly closed with no
heading found, and resume at `cursor + 1`. -/
def thmScanAux (lines : List (List Char)) (offs : List Nat) (srcLen : Nat) :
    Nat → Nat → ParseState → ParseState
  | 0, _, st => st
  | fuel + 1, i, st =>
    if i < lines.length then
      match thmStart? (jsTrim (lines.getD i [])) with
      | none => thmScanAux lines offs srcLen fuel (i + 1) st
      | some label =>
        let blockStartOffset := offs.getD i 0
        let r := thmInner i (lines.drop (i + 1)) (i + 1) [] i
        let title := r.1
        let blockEndLine := r.2.1
        let cursor := r.2.2.1
        let implicitClosed := r.2.2.2
        let blockEndOffset :=
          if blockEndLine + 1 < offs.length then offs.getD (blockEndLine + 1) 0
          else srcLen
        let st' := addLabel offs st label Kind.theoremLike blockStartOffset blockEndOffset title
        let st'' :=
          if implicitClosed && title.isEmpty then
            let fallback := jsTrim (lines.getD (i + 1) [])
            if ¬ fallback.isEmpty && (thmStart? fallback).isNone && ¬ isThmEnd fallback then
              { st' with labels := patchTitle st'.labels label (jsTrim (stripHashPre fallback)) }
            else st'
          else st'
        thmScanAux lines offs srcLen fuel (cursor + 1) st''
    else st

/-- The three scans of `parseCrossrefIndex` — equations, then figures, then
theorem-like blocks — run from an arbitrary starting state. -/
def parseFrom (s : List Char) (st : ParseState) : ParseState :=
  let offs := buildLineOffsets s
  let lines := jsSplitLines s
  let st1 := eqScanAux lines offs s.length lines.length 0 st
  let st2 := figScanAux s offs (s.length + 1) 0 st1
  thmScanAux lines offs s.length lines.length 0 st2

/-- `parseCrossrefIndex` from `main.js` (lines 171-313): the three scans
merged into one label map with first-write-wins semantics, starting from the
empty map and zeroed counters. -/
def parseCrossrefIndex (s : List Char) : ParseState :=
  parseFrom s initState

/-- `fastHash` from `main.js` (lines 62-74): FNV-style rolling hash over the
code units of the text.  JavaScript keeps `hash` as a number coerced to a
32-bit integer by `^=` and by the final `>>> 0`; the shifted addends are
congruent to `hash * 2^k` modulo `2^32`, so the running value is modelled as
a natural number reduced modulo `2^32` at each step. -/
def fastHashStep (hash : Nat) (c : Char) : Nat :=
  let h := (hash ^^^ c.toNat) % 4294967296
  (h + (h * 2) % 4294967296 + (h * 16) % 4294967296 + (h * 128) % 4294967296 +
    (h * 256) % 4294967296 + (h * 16777216) % 4294967296) % 4294967296

/-- The fingerprint value computed by `fastHash` (the JavaScript function
additionally renders it in hexadecimal, an injective formatting step that is
irrelevant to fingerprint comparison). -/
def fastHash (cs : List Char) : Nat :=
  cs.foldl fastHashStep 2166136261

/-- One cache entry of `this.indexCache`: the `{ hash, index }` record. -/
structure CacheEntry where
  hash : Nat
  index : ParseState
deriving DecidableEq

/-- `this.indexCache`, a map from document path to cache entry, modelled as
an insertion-ordered association list. -/
def CacheMap := List (List Char × CacheEntry)

/-- `indexCache.get(path)`. -/
def cacheGet (cache : CacheMap) (path : List Char) : Option CacheEntry :=
  match cache with
  | [] => none
  | (p, e) :: rest => if p = path then some e else cacheGet rest path

/-- `indexCache.set(path, entry)`: replace an existing binding in place, or
append a new one. -/
def cacheSet (cache : CacheMap) (path : List Char) (e : CacheEntry) : CacheMap :=
  match cache with
  | [] => [(path, e)]
  | (p, e0) :: rest =>
    if p = path then (path, e) :: rest else (p, e0) :: cacheSet rest path e

/-- `getCachedIndex` from `main.js` (lines 985-1004): return the cached index
when the stored fingerprint matches the fingerprint of the current text,
otherwise rebuild with `parseCrossrefIndex` and replace the entry.  Returns
the index together with the cache after the call. -/
def getCachedIndex (cache : CacheMap) (path : List Char) (source : List Char) :
    ParseState × CacheMap :=
  let h := fastHash source
  match cacheGet cache path with
  | some e =>
    if e.hash = h then (e.index, cache)
    else
      let index := parseCrossrefIndex source
      (index, cacheSet cache path ⟨h, index⟩)
  | none =>
    let index := parseCrossrefIndex source
    (index, cacheSet cache path ⟨h, index⟩)

/-- `descriptorDisplay` from `main.js` (lines 101-116) restricted to real
descriptors: `(N)` for equations, `Figure N` for figures, and the category
title followed by the number for theorem-like kinds. -/
def theoremTitleFor (cat : List Char) : List Char :=
  if cat = "thm".data then "Theorem".data
  else if cat = "lem".data then "Lemma".data
  else if cat = "cor".data then "Corollary".data
  else if cat = "prp".data then "Proposition".data
  else if cat = "cnj".data then "Conjecture".data
  else if cat = "def".data then "Definition".data
  else if cat = "exm".data then "Example".data
  else if cat = "exr".data then "Exercise".data
  else if cat = "sol".data then "Solution".data
  else if cat = "rem".data then "Remark".data
  else if cat = "alg".data then "Algorithm".data
  else "Theorem".data

/-- Render the reference badge text of a descriptor. -/
def descriptorDisplay (d : Descriptor) : List Char :=
  match d.kind with
  | Kind.equation => '(' :: (Nat.repr d.number).data ++ [')']
  | Kind.figure => "Figure ".data ++ (Nat.repr d.number).data
  | Kind.theoremLike => theoremTitleFor d.category ++ ' ' :: (Nat.repr d.number).data

/-- One output segment produced by `replaceReferencesInNode`: a preserved
text run, a reference link (`a.crossref-ref`, displaying the badge text), or
a missing-reference marker (`span.crossref-ref-missing`, displaying the raw
token text unchanged). -/
inductive RefSeg where
  | text (s : List Char)
  | link (label : List Char) (display : List Char)
  | missing (label : List Char) (raw : List Char)
deriving DecidableEq, Repr

/-- The source text a segment came from: a text run is itself; both reference
segments replace the token `@label`. -/
def segRaw : RefSeg → List Char
  | RefSeg.text s => s
  | RefSeg.link lb _ => '@' :: lb
  | RefSeg.missing _ raw => raw

/-- `@(PREFIX_FRAGMENT-[A-Za-z0-9_-]+)` (`REF_PATTERN`) matched at the head
of the input, returning the captured label. -/
def refMatch (l : List Char) : Option (List Char) :=
  match l with
  | '@' :: r =>
    match matchAltLabel allCats r with
    | some (lb, _) => some lb
    | _ => none
  | _ => none

/-- Scan the suffix of the text starting at `pos` for the next `REF_PATTERN`
match (`REF_PATTERN.exec` with `lastIndex = pos`): leftmost match wins. -/
def findRefAux : List Char → Nat → Option (Nat × List Char)
  | [], _ => none
  | c :: rest, pos =>
    match refMatch (c :: rest) with
    | some lb => some (pos, lb)
    | none => findRefAux rest (pos + 1)

/-- Leftmost `REF_PATTERN` match at or after `pos`. -/
def findRefFrom (cs : List Char) (pos : Nat) : Option (Nat × List Char) :=
  findRefAux (cs.drop pos) pos

/-- The `while (match)` loop of `replaceReferencesInNode` (`main.js` lines
1226-1283).  `searchPos` is `REF_PATTERN.lastIndex`, `cursor` the start of the
not-yet-emitted text.  A match immediately preceded by a word character is
skipped without advancing `cursor`; otherwise the pending text, then a link
or missing segment, are emitted.  Returns the emitted segments for the
suffix, and whether any replacement happened (`replaced`). -/
def rrGo (cs : List Char) (labels : List Descriptor) :
    Nat → Nat → Nat → List RefSeg × Bool
  | 0, _, cursor =>
    (if cursor < cs.length then [RefSeg.text (cs.drop cursor)] else [], false)
  | fuel + 1, searchPos, cursor =>
    match findRefFrom cs searchPos with
    | none =>
      (if cursor < cs.length then [RefSeg.text (cs.drop cursor)] else [], false)
    | some (st, lb) =>
      if 0 < st ∧ wordChar (cs.getD (st - 1) ' ') then
        rrGo cs labels fuel (st + 1 + lb.length) cursor
      else
        let pre :=
          if cursor < st then [RefSeg.text ((cs.drop cursor).take (st - cursor))] else []
        let seg :=
          match List.find? (fun d => d.label = lb) labels with
          | some d => RefSeg.link lb (descriptorDisplay d)
          | none => RefSeg.missing lb ('@' :: lb)
        let rest := rrGo cs labels fuel (st + 1 + lb.length) (st + 1 + lb.length)
        (pre ++ seg :: rest.1, true)

/-- `replaceReferencesInNode` as a pure transformation from the text of one
DOM text node to the list of replacement segments.  When no replacement
happened the node is left untouched, i.e. the result is the single original
text run.  One fuel unit is one loop iteration; the search position advances
by at least one per iteration, so `cs.length + 1` units suffice. -/
def replaceReferencesInNode (cs : List Char) (labels : List Descriptor) : List RefSeg :=
  let r := rrGo cs labels (cs.length + 1) 0 0
  if r.2 then r.1 else [RefSeg.text cs]

/-- The host-state capabilities consulted by `navigateToReferenceLabel`
(`main.js` lines 1328-1393).  The DOM-dependent collaborators are abstracted
exactly at their call sites: `resolveTarget` is the outcome of the
`findTargetElement` search over the candidate render roots after the
navigation request and the bounded wait have completed (`some id` names the
element found and focused), `hasActiveView` is the
`getActiveViewOfType(MarkdownView)` test, and `openLinkOk` records whether
the awaited `openLinkText` call completes without throwing. -/
structure NavHost where
  activeFilePath : List Char
  indexCache : CacheMap
  hasActiveView : Bool
  openLinkOk : Bool
  resolveTarget : List Char → Option (List Char)

/-- The observable outcome of one `navigateToReferenceLabel` call: the
returned boolean, how many navigation requests (`openLinkText` calls) were
issued, how many post-navigation resolution attempts (`findTargetElement`
calls) were made, and which target element, if any, was found and focused
(scrolled into view and flashed). -/
structure NavOutcome where
  returned : Bool
  navRequests : Nat
  resolveRetries : Nat
  focused : Option (List Char)

/-- `navigateToReferenceLabel` from `main.js` (lines 1328-1393): bail out
without navigating when there is no active file, no cached index, no
descriptor for the label, or no active view; otherwise suppress the native
flash, issue one navigation request to the descriptor's start line, wait,
retry resolution once, focus whatever was found — and return `true`
regardless of whether the retry found a target (`false` only when the
awaited navigation threw). -/
def navigateToReferenceLabel (host : NavHost) (label : List Char) : NavOutcome :=
  if host.activeFilePath.isEmpty then ⟨false, 0, 0, none⟩
  else
    match cacheGet host.indexCache host.activeFilePath with
    | none => ⟨false, 0, 0, none⟩
    | some entry =>
      match findLabel entry.index label with
      | none => ⟨false, 0, 0, none⟩
      | some _ =>
        if ¬ host.hasActiveView then ⟨false, 0, 0, none⟩
        else if ¬ host.openLinkOk then ⟨false, 1, 0, none⟩
        else
          match host.resolveTarget label with
          | some t => ⟨true, 1, 1, some t⟩
          | none => ⟨true, 1, 1, none⟩

/-- Concatenate the source text of a segment list back together. -/
def refFlatten : List RefSeg → List Char
  | [] => []
  | s :: rest => segRaw s ++ refFlatten rest

/-- A document with three equations declared in order. -/
def exThreeEq : List Char :=
  ("$$\nx\n$$\n\x7b#eq-a\x7d\n$$\ny\n$$\n\x7b#eq-b\x7d\n$$\nz\n$$\n\x7b#eq-c\x7d").data

/-- A document whose label `thm-a` is declared twice; the first block has no
heading, the duplicate is implicitly closed by the open marker of `thm-b` and
is followed by the body line `hello`. -/
def exDupLabel : List Char :=
  (":::\x7b#thm-a\x7d\n:::\n:::\x7b#thm-a\x7d\nhello\n:::\x7b#thm-b\x7d\n:::").data

/-- The prefix of `exDupLabel` holding only the first declaration of `thm-a`. -/
def exDupFirst : List Char := (":::\x7b#thm-a\x7d\n:::").data

/-- A document whose only theorem block is never closed: no `:::` close marker
and no further open marker before end of document. -/
def exUnterminated : List Char := (":::\x7b#thm-a\x7d\nbody").data

/-- A document with an unclosed display-math block followed by a figure. -/
def exOpenMath : List Char := ("$$\nx = 1\npre ![cap](u) \x7b#fig-one\x7d").data

/-- The spec example of two adjacent theorem blocks with no close between
their open markers. -/
def exAdjacent : List Char := (":::\x7b#thm-a\x7d\nA\n:::\x7b#lem-b\x7d\nB\n:::").data

/-- A one-equation document used by the cache and navigation witnesses. -/
def exOneEq : List Char := ("$$\nx\n$$\n\x7b#eq-a\x7d").data

/-- A host in which the active document's cached index knows `eq-a` but no
render root yields a target even after the navigation request: the post-wait
resolution still fails. -/
def navHostMissing : NavHost :=
  ⟨"doc.md".data, [("doc.md".data, ⟨fastHash exOneEq, parseCrossrefIndex exOneEq⟩)],
    true, true, fun _ => none⟩

/-- A host whose post-navigation resolution finds the target element. -/
def navHostFound : NavHost :=
  ⟨"doc.md".data, [("doc.md".data, ⟨fastHash exOneEq, parseCrossrefIndex exOneEq⟩)],
    true, true, fun lb => some lb⟩

/-- A one-entry cache whose fingerprint matches `exOneEq`. -/
def exCache : CacheMap :=
  [("doc.md".data, ⟨fastHash exOneEq, parseCrossrefIndex exOneEq⟩)]

/-- The descriptor registered for `thm-a` in `exAdjacent`. -/
def exAdjDescA : Descriptor :=
  ⟨"thm-a".data, Kind.theoremLike, "thm".data, 1, "A".data, 0, 1⟩

/-! ### List index helpers -/

theorem getD_drop_add (l : List Nat) (j m d : Nat) :
    (l.drop j).getD m d = l.getD (j + m) d := by
  simp [List.getD_eq_getElem?_getD, List.getElem?_drop]

theorem getD_mono_of_pairwise (l : List Nat) (h : l.Pairwise (· ≤ ·))
    (i j : Nat) (hij : i ≤ j) (hj : j < l.length) :
    l.getD i 0 ≤ l.getD j 0 := by
  rcases Nat.eq_or_lt_of_le hij with rfl | hlt
  · exact le_refl _
  · rw [List.pairwise_iff_get] at h
    have hi : i < l.length := lt_trans hlt hj
    have := h ⟨i, hi⟩ ⟨j, hj⟩ (by simpa using hlt)
    simpa [List.getD_eq_getElem?_getD, List.getElem?_eq_getElem, hi, hj,
      List.get_eq_getElem] using this

theorem getD_strict_of_pairwise (l : List Nat) (h : l.Pairwise (· < ·))
    (i j : Nat) (hij : i < j) (hj : j < l.length) :
    l.getD i 0 < l.getD j 0 := by
  rw [List.pairwise_iff_get] at h
  have hi : i < l.length := lt_trans hij hj
  have := h ⟨i, hi⟩ ⟨j, hj⟩ (by simpa using hij)
  simpa [List.getD_eq_getElem?_getD, List.getElem?_eq_getElem, hi, hj,
    List.get_eq_getElem] using this

/-! ### Properties of `buildLineOffsets` and `jsSplitLines` -/

theorem nlOffsets_gt (cs : List Char) : ∀ i, ∀ x ∈ nlOffsets cs i, i < x := by
  induction cs with
  | nil => intro i x hx; simp [nlOffsets] at hx
  | cons c rest ih =>
    intro i x hx
    by_cases hc : c = '\n'
    · simp [nlOffsets, hc] at hx
      rcases hx with rfl | hx
      · omega
      · have := ih (i + 1) x hx
        omega
    · simp [nlOffsets, hc] at hx
      have := ih (i + 1) x hx
      omega

theorem nlOffsets_pairwise (cs : List Char) : ∀ i, (nlOffsets cs i).Pairwise (· < ·) := by
  induction cs with
  | nil => intro i; simp [nlOffsets]
  | cons c rest ih =>
    intro i
    by_cases hc : c = '\n'
    · simp only [nlOffsets, hc, if_pos rfl]
      refine List.pairwise_cons.mpr ⟨?_, ih (i + 1)⟩
      intro x hx
      exact nlOffsets_gt rest (i + 1) x hx
    · simpa [nlOffsets, hc] using ih (i + 1)

theorem buildLineOffsets_pairwise (cs : List Char) :
    (buildLineOffsets cs).Pairwise (· < ·) := by
  unfold buildLineOffsets
  refine List.pairwise_cons.mpr ⟨?_, nlOffsets_pairwise cs 0⟩
  intro x hx
  exact nlOffsets_gt cs 0 x hx

theorem buildLineOffsets_pairwise_le (cs : List Char) :
    (buildLineOffsets cs).Pairwise (· ≤ ·) := by
  exact (buildLineOffsets_pairwise cs).imp (fun h => le_of_lt h)

theorem buildLineOffsets_head (cs : List Char) :
    (buildLineOffsets cs).getD 0 0 = 0 := rfl

theorem buildLineOffsets_length_pos (cs : List Char) :
    0 < (buildLineOffsets cs).length := by
  simp [buildLineOffsets]

theorem splitNl_length (cs : List Char) :
    ∀ i, (splitNl cs).length = (nlOffsets cs i).length + 1 := by
  induction cs with
  | nil => intro i; simp [splitNl, nlOffsets]
  | cons c rest ih =>
    intro i
    by_cases hc : c = '\n'
    · simp [splitNl, nlOffsets, hc, ih (i + 1)]
    · have hr := ih (i + 1)
      cases hsp : splitNl rest with
      | nil => rw [hsp] at hr; simp at hr
      | cons h t =>
        rw [hsp] at hr
        simp [splitNl, nlOffsets, hc, hsp]
        simp at hr
        omega

theorem stripParts_length (ls : List (List Char)) :
    (stripParts ls).length = ls.length := by
  induction ls with
  | nil => rfl
  | cons h t ih =>
    cases t with
    | nil => rfl
    | cons h2 t2 => simpa [stripParts] using ih

theorem jsSplitLines_length (cs : List Char) :
    (jsSplitLines cs).length = (buildLineOffsets cs).length := by
  unfold jsSplitLines buildLineOffsets
  rw [stripParts_length, splitNl_length cs 0]
  simp

/-! ### Correctness of the `offsetToLine` binary search -/

theorem otlGo_spec (offs : List Nat) (offset : Nat)
    (hmono : offs.Pairwise (· ≤ ·)) :
    ∀ (fuel : Nat) (left right : Int),
      0 ≤ left → right < (offs.length : Int) →
      right + 1 - left ≤ (fuel : Int) →
      (∀ k : Nat, (k : Int) < left → offs.getD k 0 ≤ offset) →
      (∀ k : Nat, right < (k : Int) → k < offs.length → offset < offs.getD k 0) →
      (∀ k : Nat, (k : Int) ≤ otlGo offs offset fuel left right → offs.getD k 0 ≤ offset) ∧
      (∀ k : Nat, otlGo offs offset fuel left right < (k : Int) → k < offs.length →
        offset < offs.getD k 0) ∧
      otlGo offs offset fuel left right < (offs.length : Int) := by
  intro fuel
  induction fuel with
  | zero =>
    intro left right hl hr hfuel hL hR
    have hlr : right < left := by omega
    refine ⟨?_, ?_, ?_⟩
    · intro k hk
      exact hL k (by simp [otlGo] at hk; omega)
    · intro k hk hk2
      exact hR k (by simpa [otlGo] using hk) hk2
    · simpa [otlGo] using hr
  | succ fuel ih =>
    intro left right hl hr hfuel hL hR
    by_cases hlr : left ≤ right
    · have hmidl : left ≤ (left + right) / 2 := by omega
      have hmidr : (left + right) / 2 ≤ right := by omega
      set mid := (left + right) / 2 with hmid
      have hmid0 : 0 ≤ mid := le_trans hl hmidl
      have hmidlen : mid.toNat < offs.length := by omega
      by_cases hcmp : offs.getD mid.toNat 0 ≤ offset
      · have hrec := ih (mid + 1) right (by omega) hr (by omega)
          (fun k hk => by
            by_cases hkl : (k : Int) < left
            · exact hL k hkl
            · have hkm : k ≤ mid.toNat := by omega
              exact le_trans (getD_mono_of_pairwise offs hmono k mid.toNat hkm hmidlen) hcmp)
          hR
        have hunfold : otlGo offs offset (fuel + 1) left right =
            otlGo offs offset fuel (mid + 1) right := by
          simp only [otlGo]
          rw [← hmid, if_pos hlr, if_pos hcmp]
        rw [hunfold]
        exact hrec
      · have hcmp' : offset < offs.getD mid.toNat 0 := by omega
        have hrec := ih left (mid - 1) hl (by omega) (by omega) hL
          (fun k hk hk2 => by
            by_cases hkr : right < (k : Int)
            · exact hR k hkr hk2
            · have hkm : mid.toNat ≤ k := by omega
              exact lt_of_lt_of_le hcmp' (getD_mono_of_pairwise offs hmono mid.toNat k hkm hk2))
        have hunfold : otlGo offs offset (fuel + 1) left right =
            otlGo offs offset fuel left (mid - 1) := by
          simp only [otlGo]
          rw [← hmid, if_pos hlr, if_neg hcmp]
        rw [hunfold]
        exact hrec
    · have hunfold : otlGo offs offset (fuel + 1) left right = right := by
        simp [otlGo, hlr]
      rw [hunfold]
      refine ⟨?_, ?_, hr⟩
      · intro k hk
        exact hL k (by omega)
      · intro k hk hk2
        exact hR k hk hk2

theorem offsetToLine_spec (offs : List Nat) (offset : Nat)
    (hmono : offs.Pairwise (· ≤ ·)) (hlen : 0 < offs.length) (h0 : offs.getD 0 0 = 0) :
    offs.getD (offsetToLine offs offset) 0 ≤ offset ∧
    (∀ k, offsetToLine offs offset < k → k < offs.length → offset < offs.getD k 0) ∧
    offsetToLine offs offset < offs.length := by
  have hspec := otlGo_spec offs offset hmono (offs.length + 1) 0 ((offs.length : Int) - 1)
    (by omega) (by omega) (by push_cast; omega)
    (fun k hk => by omega)
    (fun k hk hk2 => by omega)
  set r := otlGo offs offset (offs.length + 1) 0 ((offs.length : Int) - 1) with hr
  obtain ⟨h1, h2, h3⟩ := hspec
  have hr0 : 0 ≤ r := by
    by_contra hneg
    have := h2 0 (by omega) hlen
    omega
  have heq : offsetToLine offs offset = r.toNat := by
    unfold offsetToLine
    rw [← hr]
    congr 1
    omega
  refine ⟨?_, ?_, ?_⟩
  · rw [heq]
    exact h1 r.toNat (by omega)
  · intro k hk hk2
    rw [heq] at hk
    exact h2 k (by omega) hk2
  · rw [heq]
    omega

theorem offsetToLine_unique (offs : List Nat) (offset : Nat)
    (hmono : offs.Pairwise (· ≤ ·)) (hlen : 0 < offs.length) (h0 : offs.getD 0 0 = 0)
    (k : Nat) (hk : k < offs.length) (hle : offs.getD k 0 ≤ offset)
    (hnext : k + 1 < offs.length → offset < offs.getD (k + 1) 0) :
    offsetToLine offs offset = k := by
  obtain ⟨h1, h2, h3⟩ := offsetToLine_spec offs offset hmono hlen h0
  set r := offsetToLine offs offset with hrdef
  rcases lt_trichotomy r k with hlt | heq | hgt
  · have := h2 k hlt hk
    omega
  · exact heq
  · have hk1 : k + 1 < offs.length := by omega
    have hnext' := hnext hk1
    have hmono' := getD_mono_of_pairwise offs hmono (k + 1) r (by omega) h3
    omega

theorem offsetToLine_mono (offs : List Nat) (o1 o2 : Nat)
    (hmono : offs.Pairwise (· ≤ ·)) (hlen : 0 < offs.length) (h0 : offs.getD 0 0 = 0)
    (h12 : o1 ≤ o2) :
    offsetToLine offs o1 ≤ offsetToLine offs o2 := by
  obtain ⟨h11, h12', h13⟩ := offsetToLine_spec offs o1 hmono hlen h0
  obtain ⟨h21, h22, h23⟩ := offsetToLine_spec offs o2 hmono hlen h0
  by_contra hgt
  have hlt : offsetToLine offs o2 < offsetToLine offs o1 := by omega
  have := h22 (offsetToLine offs o1) hlt h13
  omega

theorem offsetToLine_getD_self (offs : List Nat) (i : Nat)
    (hstrict : offs.Pairwise (· < ·)) (h0 : offs.getD 0 0 = 0) (hi : i < offs.length) :
    offsetToLine offs (offs.getD i 0) = i := by
  refine offsetToLine_unique offs (offs.getD i 0) (hstrict.imp (fun h => le_of_lt h))
    (by omega) h0 i hi (le_refl _) ?_
  intro h1
  exact getD_strict_of_pairwise offs hstrict i (i + 1) (by omega) h1

theorem offsetToLine_getD_pred (offs : List Nat) (j : Nat)
    (hstrict : offs.Pairwise (· < ·)) (h0 : offs.getD 0 0 = 0)
    (hj1 : 1 ≤ j) (hj : j < offs.length) :
    offsetToLine offs (offs.getD j 0 - 1) = j - 1 := by
  have hlt : offs.getD (j - 1) 0 < offs.getD j 0 :=
    getD_strict_of_pairwise offs hstrict (j - 1) j (by omega) hj
  refine offsetToLine_unique offs (offs.getD j 0 - 1) (hstrict.imp (fun h => le_of_lt h))
    (by omega) h0 (j - 1) (by omega) (by omega) ?_
  intro _
  have hjj : j - 1 + 1 = j := by omega
  rw [hjj]
  omega

/-! ### Parse-state invariants -/

/-- The numbering scope of a descriptor: the kind for equations and figures,
the kind together with the category for theorem-like descriptors. -/
def scopeKey (d : Descriptor) : Kind × List Char :=
  match d.kind with
  | Kind.theoremLike => (Kind.theoremLike, d.category)
  | k => (k, [])

/-- How many descriptors of `l` share the numbering scope of `d`. -/
def countScope (l : List Descriptor) (d : Descriptor) : Nat :=
  (l.filter (fun e => scopeKey e = scopeKey d)).length

/-- The invariant maintained by every step of `parseCrossrefIndex`: the label
map has no duplicate labels, each counter equals the number of descriptors
already registered in its scope, every descriptor's number is one more than
the number of same-scope descriptors registered before it, and every line
span is well-formed. -/
structure StInv (st : ParseState) : Prop where
  nodup : (st.labels.map (fun d => d.label)).Nodup
  eqCount : st.eqCount = (st.labels.filter (fun d => d.kind = Kind.equation)).length
  figCount : st.figCount = (st.labels.filter (fun d => d.kind = Kind.figure)).length
  thmCount : ∀ cat, getThmCount st cat =
    (st.labels.filter (fun d => d.kind = Kind.theoremLike ∧ d.category = cat)).length
  ranks : ∀ i (h : i < st.labels.length),
    (st.labels.get ⟨i, h⟩).number = countScope (st.labels.take i) (st.labels.get ⟨i, h⟩) + 1
  spans : ∀ d ∈ st.labels, d.lineStart ≤ d.lineEnd

theorem initState_inv : StInv initState := by
  constructor <;> simp [initState, getThmCount, lookupCat]

theorem lookupCat_setAssocNat (l : List (List Char × Nat)) (k : List Char) (v : Nat) :
    ∀ k', lookupCat (setAssocNat l k v) k' = if k' = k then some v else lookupCat l k' := by
  induction l with
  | nil =>
    intro k'
    by_cases h : k' = k
    · simp [setAssocNat, lookupCat, h]
    · have hne2 : ¬ k = k' := fun hc => h hc.symm
      simp [setAssocNat, lookupCat, h, hne2]
  | cons p rest ih =>
    intro k'
    obtain ⟨k0, v0⟩ := p
    by_cases h0 : k0 = k
    · subst h0
      by_cases h : k' = k0
      · simp [setAssocNat, lookupCat, h]
      · have hne2 : ¬ k0 = k' := fun hc => h hc.symm
        simp [setAssocNat, lookupCat, h, hne2]
    · by_cases h : k' = k0
      · have hne : ¬ k' = k := fun hc => h0 (h.symm.trans hc)
        simp [setAssocNat, lookupCat, h0, hne, h]
      · by_cases hk : k' = k
        · simp [setAssocNat, lookupCat, h0, h, ih, hk]
        · simp [setAssocNat, lookupCat, h0, h, ih, hk]

theorem scopeKey_equation (e : Descriptor) :
    scopeKey e = (Kind.equation, []) ↔ e.kind = Kind.equation := by
  cases h : e.kind <;> simp [scopeKey, h]

theorem scopeKey_figure (e : Descriptor) :
    scopeKey e = (Kind.figure, []) ↔ e.kind = Kind.figure := by
  cases h : e.kind <;> simp [scopeKey, h]

theorem scopeKey_theorem (e : Descriptor) (cat : List Char) :
    scopeKey e = (Kind.theoremLike, cat) ↔ (e.kind = Kind.theoremLike ∧ e.category = cat) := by
  cases h : e.kind <;> simp [scopeKey, h]

theorem countScope_equation (l : List Descriptor) (d : Descriptor)
    (hd : d.kind = Kind.equation) :
    countScope l d = (l.filter (fun e => e.kind = Kind.equation)).length := by
  unfold countScope
  congr 1
  apply List.filter_congr
  intro e _
  have hk : scopeKey d = (Kind.equation, []) := by simp [scopeKey, hd]
  rw [hk]
  simp [scopeKey_equation]

theorem countScope_figure (l : List Descriptor) (d : Descriptor)
    (hd : d.kind = Kind.figure) :
    countScope l d = (l.filter (fun e => e.kind = Kind.figure)).length := by
  unfold countScope
  congr 1
  apply List.filter_congr
  intro e _
  have hk : scopeKey d = (Kind.figure, []) := by simp [scopeKey, hd]
  rw [hk]
  simp [scopeKey_figure]

theorem countScope_theorem (l : List Descriptor) (d : Descriptor)
    (hd : d.kind = Kind.theoremLike) :
    countScope l d =
      (l.filter (fun e => e.kind = Kind.theoremLike ∧ e.category = d.category)).length := by
  unfold countScope
  congr 1
  apply List.filter_congr
  intro e _
  have hk : scopeKey d = (Kind.theoremLike, d.category) := by simp [scopeKey, hd]
  rw [hk]
  simp [scopeKey_theorem]

theorem ranks_append (l : List Descriptor) (d : Descriptor)
    (hr : ∀ i (h : i < l.length), (l.get ⟨i, h⟩).number = countScope (l.take i) (l.get ⟨i, h⟩) + 1)
    (hd : d.number = countScope l d + 1) :
    ∀ i (h : i < (l ++ [d]).length),
      ((l ++ [d]).get ⟨i, h⟩).number = countScope ((l ++ [d]).take i) ((l ++ [d]).get ⟨i, h⟩) + 1 := by
  intro i h
  simp only [List.length_append, List.length_singleton] at h
  rcases Nat.lt_or_ge i l.length with hi | hi
  · have hget : (l ++ [d]).get ⟨i, by simp; omega⟩ = l.get ⟨i, hi⟩ := by
      simp only [List.get_eq_getElem]
      exact List.getElem_append_left hi
    have htake : (l ++ [d]).take i = l.take i := by
      rw [List.take_append_eq_append_take]
      have hz : i - l.length = 0 := by omega
      simp [hz]
    rw [hget, htake]
    exact hr i hi
  · have hieq : i = l.length := by omega
    subst hieq
    have hget : (l ++ [d]).get ⟨l.length, by simp⟩ = d := by
      simp [List.get_eq_getElem]
    have htake : (l ++ [d]).take l.length = l := by
      rw [List.take_append_eq_append_take]
      simp
    rw [hget, htake]
    exact hd

theorem addLabel_inv (offs : List Nat) (st : ParseState) (label : List Char) (kind : Kind)
    (so eo : Nat) (title : List Char)
    (hmono : offs.Pairwise (· ≤ ·)) (hlen : 0 < offs.length) (h0 : offs.getD 0 0 = 0)
    (hinv : StInv st) :
    StInv (addLabel offs st label kind so eo title) := by
  by_cases hdup : st.labels.any (fun d => d.label = label)
  · simpa [addLabel, hdup] using hinv
  · have hnew : label ∉ st.labels.map (fun e => e.label) := by
      intro hmem
      apply hdup
      rw [List.any_eq_true]
      simp only [List.mem_map] at hmem
      obtain ⟨e, he, hel⟩ := hmem
      exact ⟨e, he, by simp [hel]⟩
    have hspan : offsetToLine offs so ≤ offsetToLine offs (max so (eo - 1)) :=
      offsetToLine_mono offs so (max so (eo - 1)) hmono hlen h0 (le_max_left _ _)
    cases kind with
    | equation =>
      have hred : addLabel offs st label Kind.equation so eo title =
          { labels := st.labels ++
              [⟨label, Kind.equation, labelCategory label, st.eqCount + 1, title,
                offsetToLine offs so, offsetToLine offs (max so (eo - 1))⟩],
            eqCount := st.eqCount + 1, figCount := st.figCount,
            thmCounters := st.thmCounters } := by
        simp [addLabel, hdup]
      rw [hred]
      refine ⟨?_, ?_, ?_, ?_, ?_, ?_⟩
      · simp only [List.map_append]
        rw [List.nodup_append]
        exact ⟨hinv.nodup, by simp, by simpa [List.disjoint_singleton] using hnew⟩
      · simp [List.filter_append, hinv.eqCount, List.filter]
      · simp [List.filter_append, hinv.figCount, List.filter]
      · intro cat
        have := hinv.thmCount cat
        simp only [List.filter_append]
        simpa [getThmCount, List.filter] using this
      · refine ranks_append st.labels
          ⟨label, Kind.equation, labelCategory label, st.eqCount + 1, title,
            offsetToLine offs so, offsetToLine offs (max so (eo - 1))⟩ hinv.ranks ?_
        rw [countScope_equation st.labels
          ⟨label, Kind.equation, labelCategory label, st.eqCount + 1, title,
            offsetToLine offs so, offsetToLine offs (max so (eo - 1))⟩ rfl]
        rw [← hinv.eqCount]
      · intro d hd
        simp only [List.mem_append, List.mem_singleton] at hd
        rcases hd with hd | rfl
        · exact hinv.spans d hd
        · exact hspan
    | figure =>
      have hred : addLabel offs st label Kind.figure so eo title =
          { labels := st.labels ++
              [⟨label, Kind.figure, labelCategory label, st.figCount + 1, title,
                offsetToLine offs so, offsetToLine offs (max so (eo - 1))⟩],
            eqCount := st.eqCount, figCount := st.figCount + 1,
            thmCounters := st.thmCounters } := by
        simp [addLabel, hdup]
      rw [hred]
      refine ⟨?_, ?_, ?_, ?_, ?_, ?_⟩
      · simp only [List.map_append]
        rw [List.nodup_append]
        exact ⟨hinv.nodup, by simp, by simpa [List.disjoint_singleton] using hnew⟩
      · simp [List.filter_append, hinv.eqCount, List.filter]
      · simp [List.filter_append, hinv.figCount, List.filter]
      · intro cat
        have := hinv.thmCount cat
        simp only [List.filter_append]
        simpa [getThmCount, List.filter] using this
      · refine ranks_append st.labels
          ⟨label, Kind.figure, labelCategory label, st.figCount + 1, title,
            offsetToLine offs so, offsetToLine offs (max so (eo - 1))⟩ hinv.ranks ?_
        rw [countScope_figure st.labels
          ⟨label, Kind.figure, labelCategory label, st.figCount + 1, title,
            offsetToLine offs so, offsetToLine offs (max so (eo - 1))⟩ rfl]
        rw [← hinv.figCount]
      · intro d hd
        simp only [List.mem_append, List.mem_singleton] at hd
        rcases hd with hd | rfl
        · exact hinv.spans d hd
        · exact hspan
    | theoremLike =>
      have hred : addLabel offs st label Kind.theoremLike so eo title =
          { labels := st.labels ++
              [⟨label, Kind.theoremLike, labelCategory label,
                getThmCount st (labelCategory label) + 1, title,
                offsetToLine offs so, offsetToLine offs (max so (eo - 1))⟩],
            eqCount := st.eqCount, figCount := st.figCount,
            thmCounters := setAssocNat st.thmCounters (labelCategory label)
              (getThmCount st (labelCategory label) + 1) } := by
        simp [addLabel, hdup]
      rw [hred]
      refine ⟨?_, ?_, ?_, ?_, ?_, ?_⟩
      · simp only [List.map_append]
        rw [List.nodup_append]
        exact ⟨hinv.nodup, by simp, by simpa [List.disjoint_singleton] using hnew⟩
      · simp [List.filter_append, hinv.eqCount, List.filter]
      · simp [List.filter_append, hinv.figCount, List.filter]
      · intro cat
        have hbase := hinv.thmCount cat
        simp only [List.filter_append]
        by_cases hc : cat = labelCategory label
        · subst hc
          simp only [getThmCount, lookupCat_setAssocNat, if_pos rfl]
          simp only [getThmCount] at hbase
          simp [List.filter, hbase]
        · have hne : ¬ labelCategory label = cat := fun hx => hc hx.symm
          simp only [getThmCount, lookupCat_setAssocNat, if_neg hc]
          simp only [getThmCount] at hbase
          simp [List.filter, hne, hbase]
      · refine ranks_append st.labels
          ⟨label, Kind.theoremLike, labelCategory label,
            getThmCount st (labelCategory label) + 1, title,
            offsetToLine offs so, offsetToLine offs (max so (eo - 1))⟩ hinv.ranks ?_
        rw [countScope_theorem st.labels
          ⟨label, Kind.theoremLike, labelCategory label,
            getThmCount st (labelCategory label) + 1, title,
            offsetToLine offs so, offsetToLine offs (max so (eo - 1))⟩ rfl]
        dsimp only
        rw [← hinv.thmCount (labelCategory label)]
      · intro d hd
        simp only [List.mem_append, List.mem_singleton] at hd
        rcases hd with hd | rfl
        · exact hinv.spans d hd
        · exact hspan

/-- Equality of all descriptor fields except the title: the late title patch
of the theorem scan changes nothing else. -/
def coreEq (d e : Descriptor) : Prop :=
  d.label = e.label ∧ d.kind = e.kind ∧ d.category = e.category ∧
    d.number = e.number ∧ d.lineStart = e.lineStart ∧ d.lineEnd = e.lineEnd

theorem coreEq_refl (d : Descriptor) : coreEq d d :=
  ⟨rfl, rfl, rfl, rfl, rfl, rfl⟩

theorem forall2_coreEq_refl (l : List Descriptor) : List.Forall₂ coreEq l l := by
  induction l with
  | nil => exact List.Forall₂.nil
  | cons d rest ih => exact List.Forall₂.cons (coreEq_refl d) ih

theorem patchTitle_forall2 (l : List Descriptor) (label t : List Char) :
    List.Forall₂ coreEq (patchTitle l label t) l := by
  induction l with
  | nil => exact List.Forall₂.nil
  | cons d rest ih =>
    by_cases h : d.label = label
    · simp only [patchTitle, if_pos h]
      by_cases ht : d.title.isEmpty
      · rw [if_pos ht]
        exact List.Forall₂.cons ⟨rfl, rfl, rfl, rfl, rfl, rfl⟩ (forall2_coreEq_refl rest)
      · rw [if_neg ht]
        exact List.Forall₂.cons (coreEq_refl d) (forall2_coreEq_refl rest)
    · simp only [patchTitle, if_neg h]
      exact List.Forall₂.cons (coreEq_refl d) ih

theorem scopeKey_coreEq (d e : Descriptor) (h : coreEq d e) : scopeKey d = scopeKey e := by
  obtain ⟨_, hk, hc, _, _, _⟩ := h
  unfold scopeKey
  rw [hk, hc]

theorem forall2_label_map (l' l : List Descriptor) (hf : List.Forall₂ coreEq l' l) :
    l'.map (fun e => e.label) = l.map (fun e => e.label) := by
  induction hf with
  | nil => rfl
  | cons h _ ih => simp [h.1, ih]

theorem forall2_filter_length (p : Descriptor → Bool)
    (hp : ∀ d e, coreEq d e → p d = p e) (l' l : List Descriptor)
    (hf : List.Forall₂ coreEq l' l) :
    (l'.filter p).length = (l.filter p).length := by
  induction hf with
  | nil => rfl
  | cons h _ ih =>
    rename_i a b l1 l2 hrest
    rw [List.filter_cons, List.filter_cons, hp a b h]
    by_cases hb : p b
    · simp [hb, ih]
    · simp [hb, ih]

theorem forall2_countScope (l' l : List Descriptor) (d e : Descriptor)
    (hf : List.Forall₂ coreEq l' l) (hde : coreEq d e) :
    countScope l' d = countScope l e := by
  unfold countScope
  rw [show (fun x => decide (scopeKey x = scopeKey d)) =
      (fun x => decide (scopeKey x = scopeKey e)) from by
    funext x
    rw [scopeKey_coreEq d e hde]]
  exact forall2_filter_length _ (fun a b hab => by
    simp [scopeKey_coreEq a b hab]) l' l hf

theorem stinv_core_transfer (st : ParseState) (labels' : List Descriptor)
    (hf : List.Forall₂ coreEq labels' st.labels) (hinv : StInv st) :
    StInv { st with labels := labels' } := by
  have hlen : labels'.length = st.labels.length := hf.length_eq
  have hget : ∀ i (h1 : i < labels'.length) (h2 : i < st.labels.length),
      coreEq (labels'.get ⟨i, h1⟩) (st.labels.get ⟨i, h2⟩) := by
    intro i h1 h2
    exact (List.forall₂_iff_get.mp hf).2 i h1 h2
  refine ⟨?_, ?_, ?_, ?_, ?_, ?_⟩
  · show (labels'.map (fun e => e.label)).Nodup
    rw [forall2_label_map labels' st.labels hf]
    exact hinv.nodup
  · show st.eqCount = (labels'.filter (fun d => d.kind = Kind.equation)).length
    rw [forall2_filter_length _ (fun a b hab => by simp [hab.2.1]) labels' st.labels hf]
    exact hinv.eqCount
  · show st.figCount = (labels'.filter (fun d => d.kind = Kind.figure)).length
    rw [forall2_filter_length _ (fun a b hab => by simp [hab.2.1]) labels' st.labels hf]
    exact hinv.figCount
  · intro cat
    show getThmCount st cat =
      (labels'.filter (fun d => d.kind = Kind.theoremLike ∧ d.category = cat)).length
    rw [forall2_filter_length _ (fun a b hab => by simp [hab.2.1, hab.2.2.1]) labels'
      st.labels hf]
    exact hinv.thmCount cat
  · intro i h
    have h1 : i < labels'.length := by simpa using h
    have h2 : i < st.labels.length := by omega
    show (labels'.get ⟨i, h1⟩).number =
      countScope (labels'.take i) (labels'.get ⟨i, h1⟩) + 1
    have hc := hget i h1 h2
    have htake : List.Forall₂ coreEq (labels'.take i) (st.labels.take i) :=
      List.forall₂_take i hf
    have hrk := hinv.ranks i h2
    calc (labels'.get ⟨i, h1⟩).number = (st.labels.get ⟨i, h2⟩).number := hc.2.2.2.1
      _ = countScope (st.labels.take i) (st.labels.get ⟨i, h2⟩) + 1 := hrk
      _ = countScope (labels'.take i) (labels'.get ⟨i, h1⟩) + 1 := by
          rw [forall2_countScope (labels'.take i) (st.labels.take i)
            (labels'.get ⟨i, h1⟩) (st.labels.get ⟨i, h2⟩) htake hc]
  · intro d hd
    have hd' : d ∈ labels' := by simpa using hd
    obtain ⟨i, hi⟩ := List.mem_iff_get.mp hd'
    have h2 : (i : Nat) < st.labels.length := by omega
    have hc := hget (i : Nat) i.isLt h2
    have hsp := hinv.spans (st.labels.get ⟨(i : Nat), h2⟩) (List.get_mem st.labels _ h2)
    rw [← hi]
    have he1 : (labels'.get i).lineStart = (st.labels.get ⟨(i : Nat), h2⟩).lineStart :=
      hc.2.2.2.2.1
    have he2 : (labels'.get i).lineEnd = (st.labels.get ⟨(i : Nat), h2⟩).lineEnd :=
      hc.2.2.2.2.2
    omega

theorem eqScanAux_inv (lines : List (List Char)) (offs : List Nat) (srcLen : Nat)
    (hmono : offs.Pairwise (· ≤ ·)) (hlen : 0 < offs.length) (h0 : offs.getD 0 0 = 0) :
    ∀ fuel i st, StInv st → StInv (eqScanAux lines offs srcLen fuel i st) := by
  intro fuel
  induction fuel with
  | zero => intro i st hinv; simpa [eqScanAux] using hinv
  | succ fuel ih =>
    intro i st hinv
    simp only [eqScanAux]
    by_cases h1 : i < lines.length
    · rw [if_pos h1]
      by_cases h2 : isDollarLine (lines.getD i [])
      · rw [if_pos h2]
        cases hfind : findDollarFrom lines (i + 1) with
        | none => exact ih _ _ hinv
        | some endLine =>
          apply ih
          by_cases h3 : skipBlanksFrom lines (endLine + 1) < lines.length
          · rw [if_pos h3]
            cases heq : eqLabel? (jsTrim (lines.getD (skipBlanksFrom lines (endLine + 1)) [])) with
            | none => exact hinv
            | some lb => exact addLabel_inv _ _ _ _ _ _ _ hmono hlen h0 hinv
          · rw [if_neg h3]
            exact hinv
      · rw [if_neg h2]
        exact ih _ _ hinv
    · rw [if_neg h1]
      exact hinv

theorem figScanAux_inv (cs : List Char) (offs : List Nat)
    (hmono : offs.Pairwise (· ≤ ·)) (hlen : 0 < offs.length) (h0 : offs.getD 0 0 = 0) :
    ∀ fuel pos st, StInv st → StInv (figScanAux cs offs fuel pos st) := by
  intro fuel
  induction fuel with
  | zero => intro pos st hinv; simpa [figScanAux] using hinv
  | succ fuel ih =>
    intro pos st hinv
    simp only [figScanAux]
    cases hfind : findFigFrom cs pos with
    | none => exact hinv
    | some r =>
      obtain ⟨start, lb, len⟩ := r
      exact ih _ _ (addLabel_inv _ _ _ _ _ _ _ hmono hlen h0 hinv)

theorem thmScanAux_inv (lines : List (List Char)) (offs : List Nat) (srcLen : Nat)
    (hmono : offs.Pairwise (· ≤ ·)) (hlen : 0 < offs.length) (h0 : offs.getD 0 0 = 0) :
    ∀ fuel i st, StInv st → StInv (thmScanAux lines offs srcLen fuel i st) := by
  intro fuel
  induction fuel with
  | zero => intro i st hinv; simpa [thmScanAux] using hinv
  | succ fuel ih =>
    intro i st hinv
    simp only [thmScanAux]
    by_cases h1 : i < lines.length
    · rw [if_pos h1]
      cases hst : thmStart? (jsTrim (lines.getD i [])) with
      | none => exact ih _ _ hinv
      | some label =>
        apply ih
        have hadd : StInv (addLabel offs st label Kind.theoremLike (offs.getD i 0)
            (if (thmInner i (lines.drop (i + 1)) (i + 1) [] i).2.1 + 1 < offs.length then
              offs.getD ((thmInner i (lines.drop (i + 1)) (i + 1) [] i).2.1 + 1) 0
            else srcLen) (thmInner i (lines.drop (i + 1)) (i + 1) [] i).1) :=
          addLabel_inv _ _ _ _ _ _ _ hmono hlen h0 hinv
        set st' := addLabel offs st label Kind.theoremLike (offs.getD i 0)
            (if (thmInner i (lines.drop (i + 1)) (i + 1) [] i).2.1 + 1 < offs.length then
              offs.getD ((thmInner i (lines.drop (i + 1)) (i + 1) [] i).2.1 + 1) 0
            else srcLen) (thmInner i (lines.drop (i + 1)) (i + 1) [] i).1 with hst'
        by_cases himp : (thmInner i (lines.drop (i + 1)) (i + 1) [] i).2.2.2 &&
            (thmInner i (lines.drop (i + 1)) (i + 1) [] i).1.isEmpty
        · rw [if_pos himp]
          by_cases hfb : ¬ (jsTrim (lines.getD (i + 1) [])).isEmpty &&
              (thmStart? (jsTrim (lines.getD (i + 1) []))).isNone &&
              ¬ isThmEnd (jsTrim (lines.getD (i + 1) []))
          · rw [if_pos hfb]
            exact stinv_core_transfer st' _ (patchTitle_forall2 st'.labels label _) hadd
          · rw [if_neg hfb]
            exact hadd
        · rw [if_neg himp]
          exact hadd
    · rw [if_neg h1]
      exact hinv

theorem parseFrom_inv (s : List Char) (st : ParseState) (hinv : StInv st) :
    StInv (parseFrom s st) := by
  have hmono := buildLineOffsets_pairwise_le s
  have hlen := buildLineOffsets_length_pos s
  have h0 := buildLineOffsets_head s
  unfold parseFrom
  exact thmScanAux_inv _ _ _ hmono hlen h0 _ _ _
    (figScanAux_inv _ _ hmono hlen h0 _ _ _
      (eqScanAux_inv _ _ _ hmono hlen h0 _ _ _ hinv))

theorem parseCrossrefIndex_inv (s : List Char) : StInv (parseCrossrefIndex s) :=
  parseFrom_inv s initState initState_inv

/-! ### First-declaration-wins: registered descriptors are never replaced -/

theorem addLabel_duplicate (offs : List Nat) (st : ParseState) (label : List Char)
    (kind : Kind) (so eo : Nat) (title : List Char)
    (hdup : st.labels.any (fun d => d.label = label)) :
    addLabel offs st label kind so eo title = st := by
  simp [addLabel, hdup]

theorem find?_append_some (l1 l2 : List Descriptor) (p : Descriptor → Bool)
    (d : Descriptor) (h : l1.find? p = some d) : (l1 ++ l2).find? p = some d := by
  induction l1 with
  | nil => simp [List.find?] at h
  | cons a rest ih =>
    by_cases ha : p a
    · simp only [List.find?, ha] at h
      simp [List.find?, ha, h]
    · simp only [List.find?] at h
      rw [Bool.not_eq_true] at ha
      rw [ha] at h
      simp only [List.cons_append, List.find?, ha]
      exact ih h

theorem findLabel_addLabel_kept (offs : List Nat) (st : ParseState) (label : List Char)
    (kind : Kind) (so eo : Nat) (title : List Char) (l : List Char) (d : Descriptor)
    (h : findLabel st l = some d) :
    findLabel (addLabel offs st label kind so eo title) l = some d := by
  by_cases hdup : st.labels.any (fun e => e.label = label)
  · rw [addLabel_duplicate offs st label kind so eo title hdup]
    exact h
  · unfold findLabel at h ⊢
    cases kind with
    | equation =>
      have hred : addLabel offs st label Kind.equation so eo title =
          { labels := st.labels ++
              [⟨label, Kind.equation, labelCategory label, st.eqCount + 1, title,
                offsetToLine offs so, offsetToLine offs (max so (eo - 1))⟩],
            eqCount := st.eqCount + 1, figCount := st.figCount,
            thmCounters := st.thmCounters } := by
        simp [addLabel, hdup]
      rw [hred]
      exact find?_append_some _ _ _ _ h
    | figure =>
      have hred : addLabel offs st label Kind.figure so eo title =
          { labels := st.labels ++
              [⟨label, Kind.figure, labelCategory label, st.figCount + 1, title,
                offsetToLine offs so, offsetToLine offs (max so (eo - 1))⟩],
            eqCount := st.eqCount, figCount := st.figCount + 1,
            thmCounters := st.thmCounters } := by
        simp [addLabel, hdup]
      rw [hred]
      exact find?_append_some _ _ _ _ h
    | theoremLike =>
      have hred : addLabel offs st label Kind.theoremLike so eo title =
          { labels := st.labels ++
              [⟨label, Kind.theoremLike, labelCategory label,
                getThmCount st (labelCategory label) + 1, title,
                offsetToLine offs so, offsetToLine offs (max so (eo - 1))⟩],
            eqCount := st.eqCount, figCount := st.figCount,
            thmCounters := setAssocNat st.thmCounters (labelCategory label)
              (getThmCount st (labelCategory label) + 1) } := by
        simp [addLabel, hdup]
      rw [hred]
      exact find?_append_some _ _ _ _ h

theorem find?_label_map_id (rest : List Descriptor) (l label t : List Char)
    (hne : ¬ l = label) :
    (rest.find? (fun d => d.label = l)).map (fun d =>
        if d.label = label ∧ d.title.isEmpty then { d with title := t } else d) =
      rest.find? (fun d => d.label = l) := by
  cases hfind : rest.find? (fun d => d.label = l) with
  | none => rfl
  | some d =>
    have hd : d.label = l := by
      have := List.find?_some hfind
      simpa using this
    have hcond : ¬ (d.label = label ∧ d.title.isEmpty) := by
      intro hc
      exact hne (hd ▸ hc.1)
    simp [hcond]
    intro h1 h2
    exact absurd ⟨h1, by simp [h2]⟩ hcond

theorem find?_patchTitle (lst : List Descriptor) (label t l : List Char) :
    (patchTitle lst label t).find? (fun d => d.label = l) =
      (lst.find? (fun d => d.label = l)).map (fun d =>
        if d.label = label ∧ d.title.isEmpty then { d with title := t } else d) := by
  induction lst with
  | nil => simp [patchTitle, List.find?]
  | cons a rest ih =>
    by_cases ha : a.label = label
    · by_cases hae : a.title.isEmpty
      · simp only [patchTitle, if_pos ha, if_pos hae]
        by_cases hal : a.label = l
        · have hll : l = label := hal ▸ ha
          have hal2 : ({ a with title := t } : Descriptor).label = l := hal
          have hcond : a.label = label ∧ a.title.isEmpty := ⟨ha, hae⟩
          have hti : a.title = [] := by simpa using hae
          simp [List.find?, hal, hal2, hcond]
          rw [if_pos ⟨hll, hti⟩]
        · have hll : ¬ l = label := fun hc => hal (ha.symm ▸ hc ▸ rfl)
          have hal2 : ¬ ({ a with title := t } : Descriptor).label = l := hal
          simp only [List.find?]
          simp only [show (decide (({ a with title := t } : Descriptor).label = l)) = false from
            by simp [hal2], show (decide (a.label = l)) = false from by simp [hal]]
          exact (find?_label_map_id rest l label t hll).symm
      · simp only [patchTitle, if_pos ha, if_neg hae]
        by_cases hal : a.label = l
        · have hcond : ¬ (a.label = label ∧ a.title.isEmpty) := fun hc => hae hc.2
          have hti : ¬ a.title = [] := by simpa using hae
          simp [List.find?, hal, hcond]
          rw [if_neg (fun hc => hti hc.2)]
        · have hll : ¬ l = label := fun hc => hal (ha.symm ▸ hc ▸ rfl)
          simp only [List.find?]
          simp only [show (decide (a.label = l)) = false from by simp [hal]]
          exact (find?_label_map_id rest l label t hll).symm
    · simp only [patchTitle, if_neg ha]
      by_cases hal : a.label = l
      · have hcond : ¬ (a.label = label ∧ a.title.isEmpty) := fun hc => ha hc.1
        have hll : ¬ l = label := fun hc => ha (hal ▸ hc)
        simp [List.find?, hal, hcond]
        rw [if_neg (fun hc => hll hc.1)]
      · simp only [List.find?]
        simp only [show (decide (a.label = l)) = false from by simp [hal]]
        exact ih

theorem coreEq_trans (a b c : Descriptor) (h1 : coreEq a b) (h2 : coreEq b c) : coreEq a c := by
  obtain ⟨x1, x2, x3, x4, x5, x6⟩ := h1
  obtain ⟨y1, y2, y3, y4, y5, y6⟩ := h2
  exact ⟨x1.trans y1, x2.trans y2, x3.trans y3, x4.trans y4, x5.trans y5, x6.trans y6⟩

/-- Once a label is registered, every later parser step keeps its descriptor
findable with all core fields unchanged; only an empty title can be filled in
later (by the fallback-title patch). -/
def descKept (st st' : ParseState) : Prop :=
  ∀ l d, findLabel st l = some d →
    ∃ d', findLabel st' l = some d' ∧ coreEq d' d ∧ (d'.title = d.title ∨ d.title = [])

theorem descKept_refl (st : ParseState) : descKept st st :=
  fun _ d h => ⟨d, h, coreEq_refl d, Or.inl rfl⟩

theorem descKept_trans (a b c : ParseState) (h1 : descKept a b) (h2 : descKept b c) :
    descKept a c := by
  intro l d hd
  obtain ⟨d1, hf1, hc1, ht1⟩ := h1 l d hd
  obtain ⟨d2, hf2, hc2, ht2⟩ := h2 l d1 hf1
  refine ⟨d2, hf2, coreEq_trans d2 d1 d hc2 hc1, ?_⟩
  rcases ht1 with ht1 | ht1
  · rcases ht2 with ht2 | ht2
    · exact Or.inl (ht2.trans ht1)
    · exact Or.inr (ht1 ▸ ht2)
  · exact Or.inr ht1

theorem descKept_addLabel (offs : List Nat) (st : ParseState) (label : List Char)
    (kind : Kind) (so eo : Nat) (title : List Char) :
    descKept st (addLabel offs st label kind so eo title) :=
  fun l d h =>
    ⟨d, findLabel_addLabel_kept offs st label kind so eo title l d h, coreEq_refl d,
      Or.inl rfl⟩

theorem descKept_patchTitle (st : ParseState) (label t : List Char) :
    descKept st { st with labels := patchTitle st.labels label t } := by
  intro l d h
  have hfind : findLabel { st with labels := patchTitle st.labels label t } l =
      some (if d.label = label ∧ d.title.isEmpty then { d with title := t } else d) := by
    show (patchTitle st.labels label t).find? (fun e => e.label = l) = _
    rw [find?_patchTitle]
    have : st.labels.find? (fun e => e.label = l) = some d := h
    rw [this]
    rfl
  by_cases hc : d.label = label ∧ d.title.isEmpty
  · rw [if_pos hc] at hfind
    exact ⟨{ d with title := t }, hfind, ⟨rfl, rfl, rfl, rfl, rfl, rfl⟩,
      Or.inr (by simpa using hc.2)⟩
  · rw [if_neg hc] at hfind
    exact ⟨d, hfind, coreEq_refl d, Or.inl rfl⟩

theorem eqScanAux_kept (lines : List (List Char)) (offs : List Nat) (srcLen : Nat) :
    ∀ fuel i st, descKept st (eqScanAux lines offs srcLen fuel i st) := by
  intro fuel
  induction fuel with
  | zero => intro i st; simpa [eqScanAux] using descKept_refl st
  | succ fuel ih =>
    intro i st
    simp only [eqScanAux]
    by_cases h1 : i < lines.length
    · rw [if_pos h1]
      by_cases h2 : isDollarLine (lines.getD i [])
      · rw [if_pos h2]
        cases hfind : findDollarFrom lines (i + 1) with
        | none => exact ih _ _
        | some endLine =>
          refine descKept_trans _ _ _ ?_ (ih (endLine + 1) _)
          by_cases h3 : skipBlanksFrom lines (endLine + 1) < lines.length
          · rw [if_pos h3]
            cases heq : eqLabel? (jsTrim (lines.getD (skipBlanksFrom lines (endLine + 1)) [])) with
            | none => exact descKept_refl st
            | some lb => exact descKept_addLabel _ _ _ _ _ _ _
          · rw [if_neg h3]
            exact descKept_refl st
      · rw [if_neg h2]
        exact ih _ _
    · rw [if_neg h1]
      exact descKept_refl st

theorem figScanAux_kept (cs : List Char) (offs : List Nat) :
    ∀ fuel pos st, descKept st (figScanAux cs offs fuel pos st) := by
  intro fuel
  induction fuel with
  | zero => intro pos st; simpa [figScanAux] using descKept_refl st
  | succ fuel ih =>
    intro pos st
    simp only [figScanAux]
    cases hfind : findFigFrom cs pos with
    | none => exact descKept_refl st
    | some r =>
      obtain ⟨start, lb, len⟩ := r
      exact descKept_trans _ _ _ (descKept_addLabel _ _ _ _ _ _ _) (ih _ _)

theorem thmScanAux_kept (lines : List (List Char)) (offs : List Nat) (srcLen : Nat) :
    ∀ fuel i st, descKept st (thmScanAux lines offs srcLen fuel i st) := by
  intro fuel
  induction fuel with
  | zero => intro i st; simpa [thmScanAux] using descKept_refl st
  | succ fuel ih =>
    intro i st
    simp only [thmScanAux]
    by_cases h1 : i < lines.length
    · rw [if_pos h1]
      cases hst : thmStart? (jsTrim (lines.getD i [])) with
      | none => exact ih _ _
      | some label =>
        refine descKept_trans _ _ _ ?_ (ih _ _)
        refine descKept_trans _ _ _
          (descKept_addLabel offs st label Kind.theoremLike (offs.getD i 0)
            (if (thmInner i (lines.drop (i + 1)) (i + 1) [] i).2.1 + 1 < offs.length then
              offs.getD ((thmInner i (lines.drop (i + 1)) (i + 1) [] i).2.1 + 1) 0
            else srcLen)
            (thmInner i (lines.drop (i + 1)) (i + 1) [] i).1) ?_
        by_cases himp : (thmInner i (lines.drop (i + 1)) (i + 1) [] i).2.2.2 &&
            (thmInner i (lines.drop (i + 1)) (i + 1) [] i).1.isEmpty
        · rw [if_pos himp]
          by_cases hfb : ¬ (jsTrim (lines.getD (i + 1) [])).isEmpty &&
              (thmStart? (jsTrim (lines.getD (i + 1) []))).isNone &&
              ¬ isThmEnd (jsTrim (lines.getD (i + 1) []))
          · rw [if_pos hfb]
            exact descKept_patchTitle _ _ _
          · rw [if_neg hfb]
            exact descKept_refl _
        · rw [if_neg himp]
          exact descKept_refl _
    · rw [if_neg h1]
      exact descKept_refl st

theorem parseFrom_kept (s : List Char) (st : ParseState) : descKept st (parseFrom s st) := by
  unfold parseFrom
  exact descKept_trans _ _ _ (eqScanAux_kept _ _ _ _ _ _)
    (descKept_trans _ _ _ (figScanAux_kept _ _ _ _ _) (thmScanAux_kept _ _ _ _ _ _))

/-! ### Claim theorems -/

/-- Claim C2: for every source text, index building is deterministic — running
`parseCrossrefIndex` twice on identical text yields indexes with identical
descriptor sets (same labels, kinds, categories, numbers, titles, and line
spans).  The parser is a pure function of the source text (its only regex
with persistent state, `figurePattern`, is created afresh on every call), so
two runs on equal text produce equal label maps. -/
theorem parse_deterministic (s t : List Char) (h : s = t) :
    (parseCrossrefIndex s).labels = (parseCrossrefIndex t).labels := by
  rw [h]

theorem parse_deterministic_witness :
    (parseCrossrefIndex exThreeEq).labels = (parseCrossrefIndex exThreeEq).labels :=
  parse_deterministic exThreeEq exThreeEq rfl

/-- Claim C3: the number assigned by `parseCrossrefIndex` to every registered
label is exactly its 1-based rank among the same-scope labels — same kind for
equations and figures, same category for theorem-like kinds — in the order
the scans discover them (the order of the label map). -/
theorem number_is_rank (s : List Char) (i : Nat)
    (h : i < (parseCrossrefIndex s).labels.length) :
    ((parseCrossrefIndex s).labels.get ⟨i, h⟩).number =
      countScope ((parseCrossrefIndex s).labels.take i)
        ((parseCrossrefIndex s).labels.get ⟨i, h⟩) + 1 :=
  (parseCrossrefIndex_inv s).ranks i h

theorem number_is_rank_witness :
    2 < (parseCrossrefIndex exThreeEq).labels.length ∧
    ((parseCrossrefIndex exThreeEq).labels.get ⟨2, by decide⟩).number =
      countScope ((parseCrossrefIndex exThreeEq).labels.take 2)
        ((parseCrossrefIndex exThreeEq).labels.get ⟨2, by decide⟩) + 1 :=
  ⟨by decide, number_is_rank exThreeEq 2 (by decide)⟩

/-- Claim C10: every descriptor placed into the index satisfies
`0 ≤ lineStart ≤ lineEnd`: `addLabel` computes `lineEnd` from
`max(startOffset, endOffset - 1)`, and `offsetToLine` is monotone and returns
`Math.max(0, right)`, so no span is ever inverted or negative (the spans are
natural numbers in this model because of that clamp). -/
theorem descriptor_span_wf (s : List Char) (d : Descriptor)
    (h : d ∈ (parseCrossrefIndex s).labels) :
    0 ≤ d.lineStart ∧ d.lineStart ≤ d.lineEnd :=
  ⟨Nat.zero_le _, (parseCrossrefIndex_inv s).spans d h⟩

theorem descriptor_span_wf_witness :
    exAdjDescA ∈ (parseCrossrefIndex exAdjacent).labels ∧
    (0 ≤ exAdjDescA.lineStart ∧ exAdjDescA.lineStart ≤ exAdjDescA.lineEnd) :=
  ⟨by decide, descriptor_span_wf exAdjacent exAdjDescA (by decide)⟩

/-- Claim C8: `getCachedIndex` returns the cached index exactly when an entry
for the path exists whose stored fingerprint equals `fastHash` of the current
text (leaving the cache unchanged); in every other case — no entry, or a
fingerprint mismatch — it rebuilds via `parseCrossrefIndex` and replaces that
path's entry with the new fingerprint-index pair. -/
theorem cache_fingerprint_gate (cache : CacheMap) (path source : List Char) :
    (∀ e, cacheGet cache path = some e → e.hash = fastHash source →
      getCachedIndex cache path source = (e.index, cache)) ∧
    ((∀ e, cacheGet cache path = some e → ¬ e.hash = fastHash source) →
      getCachedIndex cache path source =
        (parseCrossrefIndex source,
          cacheSet cache path ⟨fastHash source, parseCrossrefIndex source⟩)) := by
  constructor
  · intro e he hh
    unfold getCachedIndex
    rw [he]
    dsimp only
    rw [if_pos hh]
  · intro hmiss
    unfold getCachedIndex
    cases hc : cacheGet cache path with
    | none => rfl
    | some e =>
      dsimp only
      rw [if_neg (hmiss e hc)]

theorem cache_fingerprint_gate_witness :
    getCachedIndex exCache ("doc.md".data) exOneEq =
      (parseCrossrefIndex exOneEq, exCache) :=
  (cache_fingerprint_gate exCache ("doc.md".data) exOneEq).1
    ⟨fastHash exOneEq, parseCrossrefIndex exOneEq⟩ (by decide) rfl

/-- Claim C1, counterexample: the claim states that
`navigateToReferenceLabel` "returns whether a target was ultimately found and
focused (true if and only if a target was located and focused)".  In
`navHostMissing` the label `eq-a` is known to the last built index and no
render root contains its target even after the navigation request, yet the
call returns `true` while nothing was found or focused — `main.js` line 1389
returns `true` on the success-log *and* on the fallback-log path. -/
theorem nav_return_counterexample :
    (navigateToReferenceLabel navHostMissing ("eq-a".data)).returned = true ∧
    (navigateToReferenceLabel navHostMissing ("eq-a".data)).focused = none ∧
    (navigateToReferenceLabel navHostMissing ("eq-a".data)).navRequests = 1 ∧
    (navigateToReferenceLabel navHostMissing ("eq-a".data)).resolveRetries = 1 := by
  refine ⟨?_, ?_, ?_, ?_⟩ <;> rfl

/-- Claim C1 as amended: for a label known to the cached index, with an
active file and view and a navigation call that does not throw,
`navigateToReferenceLabel` issues exactly one navigation request, retries
resolution exactly once after the wait, focuses whatever that retry finds —
and returns `true` in all such cases: the return value reports that the
navigation was issued, not whether a target was ultimately found. -/
theorem nav_one_shot_returns_navigated (host : NavHost) (label : List Char)
    (hpath : ¬ host.activeFilePath.isEmpty)
    (e : CacheEntry) (hce : cacheGet host.indexCache host.activeFilePath = some e)
    (d : Descriptor) (hd : findLabel e.index label = some d)
    (hview : host.hasActiveView = true) (hok : host.openLinkOk = true) :
    navigateToReferenceLabel host label =
      ⟨true, 1, 1, host.resolveTarget label⟩ := by
  unfold navigateToReferenceLabel
  rw [if_neg (by simpa using hpath), hce]
  dsimp only
  rw [hd]
  dsimp only
  rw [if_neg (by simp [hview]), if_neg (by simp [hok])]
  cases host.resolveTarget label <;> rfl

theorem nav_one_shot_witness :
    navigateToReferenceLabel navHostFound ("eq-a".data) =
      ⟨true, 1, 1, navHostFound.resolveTarget ("eq-a".data)⟩ :=
  nav_one_shot_returns_navigated navHostFound ("eq-a".data) (by decide)
    ⟨fastHash exOneEq, parseCrossrefIndex exOneEq⟩ rfl
    ⟨"eq-a".data, Kind.equation, "eq".data, 1, [], 0, 3⟩ (by decide) rfl rfl

/-- Claim C4, counterexample: the claim states that when a label is declared
more than once, the registered descriptor remains that of the first
occurrence, *unchanged* by later duplicates.  In `exDupLabel` the first
`thm-a` block registers with an empty title (as the parse of the prefix
`exDupFirst` shows), but the later duplicate `thm-a` block — implicitly
closed by the `thm-b` open marker — triggers the fallback-title patch of
`main.js` lines 299-308, which rewrites the *first* descriptor's empty title
to `hello`, the line after the duplicate's open marker. -/
theorem duplicate_patch_counterexample :
    findLabel (parseCrossrefIndex exDupFirst) ("thm-a".data) =
      some ⟨"thm-a".data, Kind.theoremLike, "thm".data, 1, [], 0, 1⟩ ∧
    findLabel (parseCrossrefIndex exDupLabel) ("thm-a".data) =
      some ⟨"thm-a".data, Kind.theoremLike, "thm".data, 1, "hello".data, 0, 1⟩ := by
  constructor <;> rfl

/-- Claim C4 as amended: a duplicate declaration registers nothing — the
`addLabel` call for an already-present label is a no-op, raising no error and
incrementing no counter — and the registered descriptor's label, kind,
category, number, and line span remain those of the first occurrence through
every later parser step; only a first-occurrence title that is still empty
can be filled in later (by the fallback-title patch of a later duplicate
theorem block, as the counterexample shows). -/
theorem first_declaration_wins (offs : List Nat) (st0 : ParseState) (label : List Char)
    (kind : Kind) (so eo : Nat) (title : List Char)
    (hdup : st0.labels.any (fun d => d.label = label))
    (s : List Char) (st : ParseState) (l : List Char) (d : Descriptor)
    (h : findLabel st l = some d) :
    addLabel offs st0 label kind so eo title = st0 ∧
    ∃ d', findLabel (parseFrom s st) l = some d' ∧ coreEq d' d ∧
      (d'.title = d.title ∨ d.title = []) :=
  ⟨addLabel_duplicate offs st0 label kind so eo title hdup, parseFrom_kept s st l d h⟩

theorem first_declaration_wins_witness :
    addLabel [] (parseCrossrefIndex exDupFirst) ("thm-a".data) Kind.theoremLike 0 0 [] =
      parseCrossrefIndex exDupFirst ∧
    ∃ d', findLabel (parseFrom exDupFirst (parseCrossrefIndex exDupFirst)) ("thm-a".data) =
        some d' ∧
      coreEq d' ⟨"thm-a".data, Kind.theoremLike, "thm".data, 1, [], 0, 1⟩ ∧
      (d'.title = (⟨"thm-a".data, Kind.theoremLike, "thm".data, 1, [], 0, 1⟩ :
          Descriptor).title ∨
        (⟨"thm-a".data, Kind.theoremLike, "thm".data, 1, [], 0, 1⟩ :
          Descriptor).title = []) :=
  first_declaration_wins [] (parseCrossrefIndex exDupFirst) ("thm-a".data)
    Kind.theoremLike 0 0 [] (by decide) exDupFirst (parseCrossrefIndex exDupFirst)
    ("thm-a".data) ⟨"thm-a".data, Kind.theoremLike, "thm".data, 1, [], 0, 1⟩ (by decide)

/-! ### Structure of `REF_PATTERN` matches -/

theorem dropLit_append (a : List Char) : ∀ r r1, dropLit a r = some r1 → a ++ r1 = r := by
  induction a with
  | nil => intro r r1 h; simp [dropLit] at h; simp [h]
  | cons c cs ih =>
    intro r r1 h
    cases r with
    | nil => simp [dropLit] at h
    | cons d ds =>
      by_cases hcd : c = d
      · simp only [dropLit, if_pos hcd] at h
        simp [hcd, ih ds r1 h]
      · simp [dropLit, hcd] at h

theorem takeWhile_append_drop (p : Char → Bool) (l : List Char) :
    l.takeWhile p ++ l.drop (l.takeWhile p).length = l := by
  induction l with
  | nil => rfl
  | cons c rest ih =>
    by_cases hp : p c
    · simp [List.takeWhile, hp, ih]
    · simp [List.takeWhile, hp]

theorem matchOneAlt_decomp (a r lb rest : List Char)
    (h : matchOneAlt a r = some (lb, rest)) :
    lb ++ rest = r ∧ ∃ run, lb = a ++ '-' :: run ∧ ∀ c ∈ run, labelChar c := by
  unfold matchOneAlt at h
  cases hdl : dropLit a r with
  | none => rw [hdl] at h; simp at h
  | some r1 =>
    rw [hdl] at h
    cases r1 with
    | nil => simp at h
    | cons c r2 =>
      by_cases hc : c = '-'
      · subst hc
        by_cases hrun : (r2.takeWhile labelChar).isEmpty
        · simp [hrun] at h
        · simp only [hrun, Bool.false_eq_true, if_false] at h
          obtain ⟨hlb, hrest⟩ := Prod.mk.injEq .. ▸ (Option.some.injEq _ _ ▸ h)
          refine ⟨?_, r2.takeWhile labelChar, hlb.symm, ?_⟩
          · rw [← hlb, ← hrest]
            have := takeWhile_append_drop labelChar r2
            calc (a ++ '-' :: r2.takeWhile labelChar) ++
                  r2.drop (r2.takeWhile labelChar).length
                = a ++ '-' :: (r2.takeWhile labelChar ++
                    r2.drop (r2.takeWhile labelChar).length) := by simp
              _ = a ++ '-' :: r2 := by rw [this]
              _ = r := dropLit_append a r ('-' :: r2) hdl
          · intro c hc
            exact List.mem_takeWhile_imp hc
      · split at h
        · rename_i r2x heq
          injection heq with heq1
          injection heq1 with heq2 heq3
          exact absurd heq2 hc
        · exact absurd h (by simp)

theorem matchAltLabel_decomp : ∀ (alts : List (List Char)) (r lb rest : List Char),
    matchAltLabel alts r = some (lb, rest) →
    lb ++ rest = r ∧ ∃ a, a ∈ alts ∧ ∃ run, lb = a ++ '-' :: run ∧ ∀ c ∈ run, labelChar c := by
  intro alts
  induction alts with
  | nil => intro r lb rest h; simp [matchAltLabel] at h
  | cons a as ih =>
    intro r lb rest h
    simp only [matchAltLabel] at h
    cases hone : matchOneAlt a r with
    | some x =>
      rw [hone] at h
      obtain ⟨x1, x2⟩ := x
      obtain ⟨heq, hrun⟩ := matchOneAlt_decomp a r x1 x2 hone
      injection h with h
      obtain ⟨h1, h2⟩ := Prod.mk.injEq .. ▸ h
      subst h1
      subst h2
      exact ⟨heq, a, List.mem_cons_self a as, hrun⟩
    | none =>
      rw [hone] at h
      obtain ⟨heq, b, hb, hrun⟩ := ih r lb rest h
      exact ⟨heq, b, List.mem_cons_of_mem a hb, hrun⟩

theorem labelChar_not_at (c : Char) (h : labelChar c) : ¬ c = '@' := by
  intro hc
  subst hc
  exact absurd h (by decide)

theorem allCats_not_at : ∀ a ∈ allCats, ∀ c ∈ a, ¬ c = '@' := by decide

theorem refMatch_decomp (l lb : List Char) (h : refMatch l = some lb) :
    (∃ rest, l = '@' :: (lb ++ rest)) ∧ ∀ c ∈ lb, ¬ c = '@' := by
  unfold refMatch at h
  split at h
  · rename_i r
    cases halt : matchAltLabel allCats r with
    | none => rw [halt] at h; simp at h
    | some x =>
      rw [halt] at h
      obtain ⟨lb0, rest0⟩ := x
      simp only at h
      injection h with h
      subst h
      obtain ⟨heq, a, ha, run, hlb, hrun⟩ := matchAltLabel_decomp allCats r lb0 rest0 halt
      refine ⟨⟨rest0, by rw [heq]⟩, ?_⟩
      intro c hc
      rw [hlb] at hc
      rcases List.mem_append.mp hc with hc | hc
      · exact allCats_not_at a ha c hc
      · rcases List.mem_cons.mp hc with rfl | hc
        · decide
        · exact labelChar_not_at c (hrun c hc)
  · simp at h

theorem findRefAux_spec (suf : List Char) : ∀ pos st lb,
    findRefAux suf pos = some (st, lb) →
    pos ≤ st ∧ st - pos < suf.length ∧ refMatch (suf.drop (st - pos)) = some lb ∧
    ∀ p, pos ≤ p → p < st → refMatch (suf.drop (p - pos)) = none := by
  induction suf with
  | nil => intro pos st lb h; simp [findRefAux] at h
  | cons c rest ih =>
    intro pos st lb h
    simp only [findRefAux] at h
    cases hm : refMatch (c :: rest) with
    | some lb0 =>
      rw [hm] at h
      injection h with h
      obtain ⟨h1, h2⟩ := Prod.mk.injEq .. ▸ h
      subst h1
      subst h2
      refine ⟨le_refl _, by simp, by simpa using hm, ?_⟩
      intro p hp1 hp2
      omega
    | none =>
      rw [hm] at h
      obtain ⟨h1, h2, h3, h4⟩ := ih (pos + 1) st lb h
      have hgt : pos < st := by omega
      refine ⟨by omega, by simp; omega, ?_, ?_⟩
      · have : (c :: rest).drop (st - pos) = rest.drop (st - pos - 1) := by
          have hk : st - pos = (st - pos - 1) + 1 := by omega
          rw [hk]
          rfl
        rw [this]
        have hk2 : st - pos - 1 = st - (pos + 1) := by omega
        rw [hk2]
        exact h3
      · intro p hp1 hp2
        rcases Nat.eq_or_lt_of_le hp1 with rfl | hplt
        · simpa using hm
        · have : (c :: rest).drop (p - pos) = rest.drop (p - pos - 1) := by
            have hk : p - pos = (p - pos - 1) + 1 := by omega
            rw [hk]
            rfl
          rw [this]
          have hk2 : p - pos - 1 = p - (pos + 1) := by omega
          rw [hk2]
          exact h4 p (by omega) hp2

theorem findRefAux_none (suf : List Char) : ∀ pos,
    findRefAux suf pos = none →
    ∀ p, pos ≤ p → refMatch (suf.drop (p - pos)) = none := by
  induction suf with
  | nil => intro pos h p hp; simp [refMatch, List.drop_nil]
  | cons c rest ih =>
    intro pos h p hp
    simp only [findRefAux] at h
    cases hm : refMatch (c :: rest) with
    | some lb0 => rw [hm] at h; simp at h
    | none =>
      rw [hm] at h
      rcases Nat.eq_or_lt_of_le hp with rfl | hplt
      · simpa using hm
      · have : (c :: rest).drop (p - pos) = rest.drop (p - pos - 1) := by
          have hk : p - pos = (p - pos - 1) + 1 := by omega
          rw [hk]
          rfl
        rw [this]
        have hk2 : p - pos - 1 = p - (pos + 1) := by omega
        rw [hk2]
        exact ih (pos + 1) h p (by omega)

theorem drop_drop_cancel (cs : List Char) (sp k : Nat) :
    (cs.drop sp).drop k = cs.drop (sp + k) := by
  rw [List.drop_drop]

theorem findRefFrom_spec (cs : List Char) (sp st : Nat) (lb : List Char)
    (h : findRefFrom cs sp = some (st, lb)) :
    sp ≤ st ∧ st < cs.length ∧ refMatch (cs.drop st) = some lb ∧
    ∀ p, sp ≤ p → p < st → refMatch (cs.drop p) = none := by
  unfold findRefFrom at h
  obtain ⟨h1, h2, h3, h4⟩ := findRefAux_spec (cs.drop sp) sp st lb h
  have hlen : (cs.drop sp).length = cs.length - sp := by simp
  refine ⟨h1, by omega, ?_, ?_⟩
  · rw [drop_drop_cancel] at h3
    have : sp + (st - sp) = st := by omega
    rwa [this] at h3
  · intro p hp1 hp2
    have := h4 p hp1 hp2
    rw [drop_drop_cancel] at this
    have heq : sp + (p - sp) = p := by omega
    rwa [heq] at this

theorem findRefFrom_none (cs : List Char) (sp : Nat)
    (h : findRefFrom cs sp = none) :
    ∀ p, sp ≤ p → refMatch (cs.drop p) = none := by
  unfold findRefFrom at h
  intro p hp
  have := findRefAux_none (cs.drop sp) sp h p hp
  rw [drop_drop_cancel] at this
  have heq : sp + (p - sp) = p := by omega
  rwa [heq] at this

theorem refFlatten_append (l1 l2 : List RefSeg) :
    refFlatten (l1 ++ l2) = refFlatten l1 ++ refFlatten l2 := by
  induction l1 with
  | nil => rfl
  | cons s rest ih => simp [refFlatten, ih]

theorem refMatch_raw_take (cs : List Char) (st : Nat) (lb : List Char)
    (hm : refMatch (cs.drop st) = some lb) :
    cs.drop st = ('@' :: lb) ++ cs.drop (st + 1 + lb.length) := by
  obtain ⟨⟨rest, hdec⟩, _⟩ := refMatch_decomp (cs.drop st) lb hm
  have hdrop : cs.drop (st + 1 + lb.length) = rest := by
    have h1 : cs.drop (st + 1 + lb.length) = (cs.drop st).drop (1 + lb.length) := by
      rw [drop_drop_cancel]
      congr 1
      omega
    rw [h1, hdec]
    have h2 : ('@' :: (lb ++ rest)).drop (1 + lb.length) = (lb ++ rest).drop lb.length := by
      have hk : 1 + lb.length = lb.length + 1 := by omega
      rw [hk]
      rfl
    rw [h2, List.drop_left]
  rw [hdrop, hdec]
  simp

theorem rrGo_flatten (cs : List Char) (labels : List Descriptor) :
    ∀ fuel sp cur, cur ≤ sp →
      refFlatten (rrGo cs labels fuel sp cur).1 = cs.drop cur := by
  intro fuel
  induction fuel with
  | zero =>
    intro sp cur _
    by_cases hc : cur < cs.length
    · simp [rrGo, hc, refFlatten, segRaw]
    · simp [rrGo, hc, refFlatten, List.drop_eq_nil_of_le (by omega : cs.length ≤ cur)]
  | succ fuel ih =>
    intro sp cur hcur
    simp only [rrGo]
    cases hf : findRefFrom cs sp with
    | none =>
      by_cases hc : cur < cs.length
      · simp [hc, refFlatten, segRaw]
      · simp [hc, refFlatten, List.drop_eq_nil_of_le (by omega : cs.length ≤ cur)]
    | some r =>
      obtain ⟨st, lb⟩ := r
      dsimp only
      obtain ⟨hsp, hlt, hm, _⟩ := findRefFrom_spec cs sp st lb hf
      by_cases hw : 0 < st ∧ wordChar (cs.getD (st - 1) ' ')
      · rw [if_pos hw]
        exact ih (st + 1 + lb.length) cur (by omega)
      · rw [if_neg hw]
        have hcurst : cur ≤ st := by omega
        have hrest := ih (st + 1 + lb.length) (st + 1 + lb.length) (le_refl _)
        have hB := refMatch_raw_take cs st lb hm
        have hkey : ∀ seg : RefSeg, segRaw seg = '@' :: lb →
            refFlatten ((if cur < st then
                [RefSeg.text ((cs.drop cur).take (st - cur))] else []) ++
              seg :: (rrGo cs labels fuel (st + 1 + lb.length) (st + 1 + lb.length)).1) =
            cs.drop cur := by
          intro seg hseg
          rw [refFlatten_append]
          by_cases hpre : cur < st
          · rw [if_pos hpre]
            simp only [refFlatten, List.append_nil]
            rw [hseg, hrest]
            simp only [segRaw]
            have hA : cs.drop cur = (cs.drop cur).take (st - cur) ++ cs.drop st := by
              conv_lhs => rw [← List.take_append_drop (st - cur) (cs.drop cur)]
              rw [drop_drop_cancel]
              congr 2
              omega
            conv_rhs => rw [hA, hB]
          · rw [if_neg hpre]
            have hcs : cur = st := by omega
            subst hcs
            simp only [refFlatten, List.nil_append]
            rw [hseg, hrest]
            exact hB.symm
        cases hfind : List.find? (fun d => d.label = lb) labels with
        | some d => exact hkey (RefSeg.link lb (descriptorDisplay d)) rfl
        | none => exact hkey (RefSeg.missing lb ('@' :: lb)) rfl

theorem rrGo_missing_sound (cs : List Char) (labels : List Descriptor) :
    ∀ fuel sp cur lb raw, RefSeg.missing lb raw ∈ (rrGo cs labels fuel sp cur).1 →
      raw = '@' :: lb ∧ List.find? (fun d => d.label = lb) labels = none := by
  intro fuel
  induction fuel with
  | zero =>
    intro sp cur lb raw h
    by_cases hc : cur < cs.length <;> simp [rrGo, hc] at h
  | succ fuel ih =>
    intro sp cur lb raw h
    simp only [rrGo] at h
    cases hf : findRefFrom cs sp with
    | none =>
      rw [hf] at h
      by_cases hc : cur < cs.length <;> simp [hc] at h
    | some r =>
      obtain ⟨st, lb0⟩ := r
      rw [hf] at h
      dsimp only at h
      by_cases hw : 0 < st ∧ wordChar (cs.getD (st - 1) ' ')
      · rw [if_pos hw] at h
        exact ih _ _ _ _ h
      · rw [if_neg hw] at h
        simp only [List.mem_append, List.mem_cons] at h
        rcases h with h | h | h
        · by_cases hpre : cur < st <;> simp [hpre] at h
        · cases hfind : List.find? (fun d => d.label = lb0) labels with
          | some d => rw [hfind] at h; simp at h
          | none =>
            rw [hfind] at h
            injection h with h1 h2
            subst h1
            exact ⟨h2, hfind⟩
        · exact ih _ _ _ _ h

theorem rrGo_missing_flag (cs : List Char) (labels : List Descriptor) :
    ∀ fuel sp cur lb raw, RefSeg.missing lb raw ∈ (rrGo cs labels fuel sp cur).1 →
      (rrGo cs labels fuel sp cur).2 = true := by
  intro fuel
  induction fuel with
  | zero =>
    intro sp cur lb raw h
    by_cases hc : cur < cs.length <;> simp [rrGo, hc] at h
  | succ fuel ih =>
    intro sp cur lb raw h
    simp only [rrGo] at h ⊢
    cases hf : findRefFrom cs sp with
    | none =>
      rw [hf] at h
      by_cases hc : cur < cs.length <;> simp [hc] at h
    | some r =>
      obtain ⟨st, lb0⟩ := r
      rw [hf] at h
      dsimp only at h ⊢
      by_cases hw : 0 < st ∧ wordChar (cs.getD (st - 1) ' ')
      · rw [if_pos hw] at h ⊢
        exact ih _ _ _ _ h
      · rw [if_neg hw]

theorem match_positions_apart (cs : List Char) (st0 st : Nat) (lb0 lb : List Char)
    (h0 : refMatch (cs.drop st0) = some lb0) (h : refMatch (cs.drop st) = some lb)
    (hlt : st0 < st) : st0 + 1 + lb0.length ≤ st := by
  by_contra hno
  push_neg at hno
  obtain ⟨⟨rest0, hdec0⟩, hno0⟩ := refMatch_decomp _ _ h0
  obtain ⟨⟨rest, hdec⟩, _⟩ := refMatch_decomp _ _ h
  have hdd : cs.drop st = (cs.drop st0).drop (st - st0) := by
    rw [drop_drop_cancel]
    congr 1
    omega
  rw [hdec0] at hdd
  have hk : st - st0 = (st - st0 - 1) + 1 := by omega
  have hstep : ('@' :: (lb0 ++ rest0)).drop (st - st0) =
      (lb0 ++ rest0).drop (st - st0 - 1) := by
    rw [hk]
    rfl
  rw [hstep] at hdd
  have hklt : st - st0 - 1 < lb0.length := by omega
  have hsplit : (lb0 ++ rest0).drop (st - st0 - 1) =
      lb0.drop (st - st0 - 1) ++ rest0 :=
    List.drop_append_of_le_length (by omega)
  rw [hsplit] at hdd
  cases hld : lb0.drop (st - st0 - 1) with
  | nil =>
    have := congrArg List.length hld
    simp at this
    omega
  | cons c t =>
    rw [hld] at hdd
    rw [hdec] at hdd
    simp only [List.cons_append] at hdd
    injection hdd with h1 h2
    have hcmem : c ∈ lb0 := List.drop_subset _ _ (hld ▸ List.mem_cons_self c t)
    exact hno0 c hcmem h1.symm

theorem rrGo_missing_complete (cs : List Char) (labels : List Descriptor) :
    ∀ fuel sp cur st lb,
      cs.length ≤ fuel + sp → sp ≤ st →
      refMatch (cs.drop st) = some lb →
      ¬ (0 < st ∧ wordChar (cs.getD (st - 1) ' ')) →
      List.find? (fun d => d.label = lb) labels = none →
      RefSeg.missing lb ('@' :: lb) ∈ (rrGo cs labels fuel sp cur).1 := by
  intro fuel
  induction fuel with
  | zero =>
    intro sp cur st lb hfuel hsp hm hw hfind
    exfalso
    have hlen : cs.drop st = [] := List.drop_eq_nil_of_le (by omega)
    rw [hlen] at hm
    simp [refMatch] at hm
  | succ fuel ih =>
    intro sp cur st lb hfuel hsp hm hw hfind
    simp only [rrGo]
    cases hf : findRefFrom cs sp with
    | none =>
      exfalso
      have hnone := findRefFrom_none cs sp hf st hsp
      rw [hnone] at hm
      exact Option.noConfusion hm
    | some r =>
      obtain ⟨st0, lb0⟩ := r
      dsimp only
      obtain ⟨hsp0, hlt0, hm0, hleft⟩ := findRefFrom_spec cs sp st0 lb0 hf
      have hst0le : st0 ≤ st := by
        by_contra hgt
        push_neg at hgt
        have := hleft st hsp hgt
        rw [this] at hm
        exact Option.noConfusion hm
      by_cases hw0 : 0 < st0 ∧ wordChar (cs.getD (st0 - 1) ' ')
      · rw [if_pos hw0]
        have hne : ¬ st0 = st := by
          intro he
          subst he
          exact hw hw0
        have hapart := match_positions_apart cs st0 st lb0 lb hm0 hm (by omega)
        exact ih (st0 + 1 + lb0.length) cur st lb (by omega) hapart hm hw hfind
      · rw [if_neg hw0]
        rcases Nat.eq_or_lt_of_le hst0le with he | hlt2
        · have hlb : lb0 = lb := by
            subst he
            have := hm0.symm.trans hm
            injection this
          subst hlb
          rw [hfind]
          exact List.mem_append_right _ (List.mem_cons_self _ _)
        · have hapart := match_positions_apart cs st0 st lb0 lb hm0 hm hlt2
          have hmem := ih (st0 + 1 + lb0.length) (st0 + 1 + lb0.length) st lb
            (by omega) hapart hm hw hfind
          exact List.mem_append_right _ (List.mem_cons_of_mem _ hmem)

/-- Claim C9: for every reference token `@label` found in a text run, not
immediately preceded by a word character, whose label is not in the index,
`replaceReferencesInNode` replaces the token with a distinct missing-marker
segment (the `missing` constructor, rendered as `span.crossref-ref-missing`)
whose text content is exactly the original literal token text `@label`,
while all surrounding text of the run is preserved unchanged:
(1) concatenating each output segment's source text reproduces the input
exactly; (2) every missing segment displays precisely `@` followed by its
label, and its label is absent from the index; (3) every position where
`REF_PATTERN` matches, that is not preceded by a word character and whose
label is not in the index, yields such a missing segment in the output. -/
theorem missing_reference_preserved (cs : List Char) (labels : List Descriptor) :
    refFlatten (replaceReferencesInNode cs labels) = cs ∧
    (∀ lb raw, RefSeg.missing lb raw ∈ replaceReferencesInNode cs labels →
      raw = '@' :: lb ∧ List.find? (fun d => d.label = lb) labels = none) ∧
    (∀ st lb, refMatch (cs.drop st) = some lb →
      ¬ (0 < st ∧ wordChar (cs.getD (st - 1) ' ')) →
      List.find? (fun d => d.label = lb) labels = none →
      RefSeg.missing lb ('@' :: lb) ∈ replaceReferencesInNode cs labels) := by
  unfold replaceReferencesInNode
  by_cases hrep : (rrGo cs labels (cs.length + 1) 0 0).2
  · rw [if_pos hrep]
    refine ⟨?_, ?_, ?_⟩
    · simpa using rrGo_flatten cs labels (cs.length + 1) 0 0 (le_refl 0)
    · intro lb raw h
      exact rrGo_missing_sound cs labels _ _ _ _ _ h
    · intro st lb hm hw hfind
      exact rrGo_missing_complete cs labels (cs.length + 1) 0 0 st lb (by omega)
        (Nat.zero_le st) hm hw hfind
  · rw [if_neg hrep]
    refine ⟨by simp [refFlatten, segRaw], ?_, ?_⟩
    · intro lb raw h
      simp at h
    · intro st lb hm hw hfind
      exfalso
      have hmem := rrGo_missing_complete cs labels (cs.length + 1) 0 0 st lb (by omega)
        (Nat.zero_le st) hm hw hfind
      exact hrep (rrGo_missing_flag cs labels _ _ _ _ _ hmem)

theorem missing_reference_preserved_witness :
    refFlatten (replaceReferencesInNode ("see @eq-x end".data) []) = ("see @eq-x end".data) ∧
    RefSeg.missing ("eq-x".data) ('@' :: "eq-x".data) ∈
      replaceReferencesInNode ("see @eq-x end".data) [] :=
  ⟨(missing_reference_preserved ("see @eq-x end".data) []).1,
    (missing_reference_preserved ("see @eq-x end".data) []).2.2 4 ("eq-x".data)
      (by decide) (by decide) rfl⟩

/-! ### Behaviour of the theorem scan on unterminated and adjacent blocks -/

theorem getD_drop_add_lines (l : List (List Char)) (j m : Nat) :
    (l.drop j).getD m [] = l.getD (j + m) [] := by
  simp [List.getD_eq_getElem?_getD, List.getElem?_drop]

theorem findFromAux_eq_none (p : List Char → Bool) :
    ∀ (xs : List (List Char)) (j : Nat),
      (∀ m, m < xs.length → ¬ p (xs.getD m [])) → findFromAux p xs j = none := by
  intro xs
  induction xs with
  | nil => intro j h; rfl
  | cons x rest ih =>
    intro j h
    have h0 : ¬ p x := by simpa using h 0 (by simp)
    simp only [findFromAux, h0, Bool.false_eq_true, if_false]
    refine ih (j + 1) ?_
    intro m hm
    simpa using h (m + 1) (by simpa using hm)

theorem thmStart_not_end (t lb : List Char) (h : thmStart? t = some lb) :
    ¬ isThmEnd t := by
  intro he
  have ht : t = [':', ':', ':'] := by simpa [isThmEnd] using he
  rw [ht] at h
  simp [thmStart?, jsWs, matchAltLabel] at h

theorem thmInner_no_marker (i : Nat) :
    ∀ (xs : List (List Char)) (cursor : Nat) (title : List Char) (ble : Nat),
      (∀ m, m < xs.length → ¬ isThmEnd (jsTrim (xs.getD m [])) ∧
        thmStart? (jsTrim (xs.getD m [])) = none) →
      ∃ t, thmInner i xs cursor title ble =
        (t, (if xs.isEmpty then ble else cursor + xs.length - 1), cursor + xs.length, false) := by
  intro xs
  induction xs with
  | nil => intro cursor title ble h; exact ⟨title, by simp [thmInner]⟩
  | cons x rest ih =>
    intro cursor title ble h
    have h0 := h 0 (by simp)
    simp only [List.getD] at h0
    have hend : isThmEnd (jsTrim x) = false := by
      simpa using h0.1
    have hstart : thmStart? (jsTrim x) = none := by
      simpa using h0.2
    obtain ⟨t, ht⟩ := ih (cursor + 1)
      (if title.isEmpty then
        match headingTitle? x with
        | some t0 => t0
        | none => title
      else title) cursor
      (fun m hm => by simpa using h (m + 1) (by simpa using hm))
    refine ⟨t, ?_⟩
    simp only [thmInner, hend, Bool.false_eq_true, if_false, hstart, Option.isSome_none]
    rw [ht]
    have h1 : (if rest.isEmpty then cursor else cursor + 1 + rest.length - 1) =
        (if (x :: rest).isEmpty then ble else cursor + (x :: rest).length - 1) := by
      cases rest with
      | nil => simp
      | cons y ys =>
        simp only [List.isEmpty_cons, List.length_cons, Bool.false_eq_true, if_false]
        omega
    have h2 : cursor + 1 + rest.length = cursor + (x :: rest).length := by
      simp only [List.length_cons]
      omega
    rw [h1, h2]

theorem thmInner_until_start (i : Nat) :
    ∀ (xs : List (List Char)) (m cursor : Nat) (title : List Char) (ble : Nat),
      m < xs.length →
      (∀ k, k < m → ¬ isThmEnd (jsTrim (xs.getD k [])) ∧
        thmStart? (jsTrim (xs.getD k [])) = none) →
      (thmStart? (jsTrim (xs.getD m []))).isSome →
      ∃ t, thmInner i xs cursor title ble =
        (t, max i (cursor + m - 1), cursor + m - 1, true) := by
  intro xs
  induction xs with
  | nil =>
    intro m cursor title ble hm
    simp at hm
  | cons x rest ih =>
    intro m cursor title ble hm hpre hstart
    cases m with
    | zero =>
      have hs : (thmStart? (jsTrim x)).isSome := by simpa using hstart
      obtain ⟨lb, hlb⟩ := Option.isSome_iff_exists.mp hs
      have hend : isThmEnd (jsTrim x) = false := by
        simpa using thmStart_not_end (jsTrim x) lb hlb
      refine ⟨if title.isEmpty then
          match headingTitle? x with
          | some t0 => t0
          | none => title
        else title, ?_⟩
      simp only [thmInner, hend, Bool.false_eq_true, if_false, hs, if_pos]
      simp
    | succ m' =>
      have h0 := hpre 0 (by omega)
      simp only [List.getD] at h0
      have hend : isThmEnd (jsTrim x) = false := by simpa using h0.1
      have hst : thmStart? (jsTrim x) = none := by simpa using h0.2
      obtain ⟨t, ht⟩ := ih m' (cursor + 1)
        (if title.isEmpty then
          match headingTitle? x with
          | some t0 => t0
          | none => title
        else title) cursor
        (by simpa using hm)
        (fun k hk => by simpa using hpre (k + 1) (by omega))
        (by simpa using hstart)
      refine ⟨t, ?_⟩
      simp only [thmInner, hend, Bool.false_eq_true, if_false, hst, Option.isSome_none]
      rw [ht]
      have h1 : cursor + 1 + m' - 1 = cursor + (m' + 1) - 1 := by omega
      rw [h1]

theorem find?_none_of_not_any (l : List Descriptor) (p : Descriptor → Bool)
    (h : ¬ l.any p) : l.find? p = none := by
  rw [List.find?_eq_none]
  intro x hx hpx
  exact h (List.any_eq_true.mpr ⟨x, hx, hpx⟩)

theorem find?_append_none (l1 l2 : List Descriptor) (p : Descriptor → Bool)
    (h : l1.find? p = none) : (l1 ++ l2).find? p = l2.find? p := by
  induction l1 with
  | nil => simp
  | cons a rest ih =>
    simp only [List.find?] at h
    cases hp : p a with
    | true => rw [hp] at h; simp at h
    | false =>
      rw [hp] at h
      simp only [List.cons_append, List.find?, hp]
      exact ih h

theorem findLabel_addLabel_self_thm (offs : List Nat) (st : ParseState)
    (la : List Char) (so eo : Nat) (t : List Char)
    (hnew : ¬ st.labels.any (fun d => d.label = la)) :
    findLabel (addLabel offs st la Kind.theoremLike so eo t) la =
      some ⟨la, Kind.theoremLike, labelCategory la,
        getThmCount st (labelCategory la) + 1, t,
        offsetToLine offs so, offsetToLine offs (max so (eo - 1))⟩ := by
  have hred : addLabel offs st la Kind.theoremLike so eo t =
      { labels := st.labels ++
          [⟨la, Kind.theoremLike, labelCategory la,
            getThmCount st (labelCategory la) + 1, t,
            offsetToLine offs so, offsetToLine offs (max so (eo - 1))⟩],
        eqCount := st.eqCount, figCount := st.figCount,
        thmCounters := setAssocNat st.thmCounters (labelCategory la)
          (getThmCount st (labelCategory la) + 1) } := by
    simp [addLabel, hnew]
  rw [hred]
  unfold findLabel
  dsimp only
  rw [find?_append_none _ _ _ (find?_none_of_not_any _ _ hnew)]
  simp [List.find?]

theorem any_label_addLabel (offs : List Nat) (st : ParseState) (la : List Char)
    (kind : Kind) (so eo : Nat) (t lb : List Char) (hne : ¬ la = lb) :
    ((addLabel offs st la kind so eo t).labels.any (fun d => d.label = lb)) =
      (st.labels.any (fun d => d.label = lb)) := by
  by_cases hdup : st.labels.any (fun d => d.label = la)
  · rw [addLabel_duplicate offs st la kind so eo t hdup]
  · cases kind with
    | equation =>
      have hred : addLabel offs st la Kind.equation so eo t =
          { labels := st.labels ++
              [⟨la, Kind.equation, labelCategory la, st.eqCount + 1, t,
                offsetToLine offs so, offsetToLine offs (max so (eo - 1))⟩],
            eqCount := st.eqCount + 1, figCount := st.figCount,
            thmCounters := st.thmCounters } := by
        simp [addLabel, hdup]
      rw [hred]
      simp [List.any_append, hne]
    | figure =>
      have hred : addLabel offs st la Kind.figure so eo t =
          { labels := st.labels ++
              [⟨la, Kind.figure, labelCategory la, st.figCount + 1, t,
                offsetToLine offs so, offsetToLine offs (max so (eo - 1))⟩],
            eqCount := st.eqCount, figCount := st.figCount + 1,
            thmCounters := st.thmCounters } := by
        simp [addLabel, hdup]
      rw [hred]
      simp [List.any_append, hne]
    | theoremLike =>
      have hred : addLabel offs st la Kind.theoremLike so eo t =
          { labels := st.labels ++
              [⟨la, Kind.theoremLike, labelCategory la,
                getThmCount st (labelCategory la) + 1, t,
                offsetToLine offs so, offsetToLine offs (max so (eo - 1))⟩],
            eqCount := st.eqCount, figCount := st.figCount,
            thmCounters := setAssocNat st.thmCounters (labelCategory la)
              (getThmCount st (labelCategory la) + 1) } := by
        simp [addLabel, hdup]
      rw [hred]
      simp [List.any_append, hne]

theorem getThmCount_addLabel_thm (offs : List Nat) (st : ParseState)
    (la : List Char) (so eo : Nat) (t : List Char)
    (hnew : ¬ st.labels.any (fun d => d.label = la)) (c : List Char) :
    getThmCount (addLabel offs st la Kind.theoremLike so eo t) c =
      (if c = labelCategory la then getThmCount st (labelCategory la) + 1
        else getThmCount st c) := by
  have hred : addLabel offs st la Kind.theoremLike so eo t =
      { labels := st.labels ++
          [⟨la, Kind.theoremLike, labelCategory la,
            getThmCount st (labelCategory la) + 1, t,
            offsetToLine offs so, offsetToLine offs (max so (eo - 1))⟩],
        eqCount := st.eqCount, figCount := st.figCount,
        thmCounters := setAssocNat st.thmCounters (labelCategory la)
          (getThmCount st (labelCategory la) + 1) } := by
    simp [addLabel, hnew]
  rw [hred]
  show (match lookupCat (setAssocNat st.thmCounters (labelCategory la)
      (getThmCount st (labelCategory la) + 1)) c with
    | some n => n
    | none => 0) = _
  rw [lookupCat_setAssocNat]
  by_cases hc : c = labelCategory la
  · rw [if_pos hc, if_pos hc]
  · rw [if_neg hc, if_neg hc]
    rfl

theorem any_label_of_forall2 (l' l : List Descriptor) (lb : List Char)
    (hf : List.Forall₂ coreEq l' l) :
    (l'.any (fun d => d.label = lb)) = (l.any (fun d => d.label = lb)) := by
  induction hf with
  | nil => rfl
  | cons h _ ih =>
    simp only [List.any_cons, h.1, ih]

theorem thmScanAux_ge (lines : List (List Char)) (offs : List Nat) (srcLen : Nat) :
    ∀ fuel i st, lines.length ≤ i → thmScanAux lines offs srcLen fuel i st = st := by
  intro fuel i st h
  cases fuel with
  | zero => rfl
  | succ fuel =>
    simp only [thmScanAux]
    rw [if_neg (by omega)]

/-- Claim C6: a display-math opening delimiter line with no later matching
closing delimiter line is skipped entirely — the equation scan registers no
descriptor for it (the state `st` is passed on unchanged), raises no error,
and continues scanning with the next line. -/
theorem unterminated_math_skipped (s : List Char) (fuel i : Nat) (st : ParseState)
    (hi : i < (jsSplitLines s).length)
    (hd : isDollarLine ((jsSplitLines s).getD i []) = true)
    (hnone : ∀ j, i < j → j < (jsSplitLines s).length →
      ¬ isDollarLine ((jsSplitLines s).getD j []) = true) :
    eqScanAux (jsSplitLines s) (buildLineOffsets s) s.length (fuel + 1) i st =
      eqScanAux (jsSplitLines s) (buildLineOffsets s) s.length fuel (i + 1) st := by
  have hfind : findDollarFrom (jsSplitLines s) (i + 1) = none := by
    unfold findDollarFrom
    refine findFromAux_eq_none _ _ _ ?_
    intro m hm
    rw [getD_drop_add_lines]
    have hml : m < (jsSplitLines s).length - (i + 1) := by simpa using hm
    exact hnone (i + 1 + m) (by omega) (by omega)
  simp only [eqScanAux]
  rw [if_pos hi, if_pos hd, hfind]

theorem unterminated_math_skipped_witness :
    eqScanAux (jsSplitLines exOpenMath) (buildLineOffsets exOpenMath)
        exOpenMath.length 3 0 initState =
      eqScanAux (jsSplitLines exOpenMath) (buildLineOffsets exOpenMath)
        exOpenMath.length 2 1 initState :=
  unterminated_math_skipped exOpenMath 2 0 initState (by decide) (by decide)
    (by
      intro j h1 h2
      have hlen : (jsSplitLines exOpenMath).length = 3 := by decide
      rw [hlen] at h2
      interval_cases j <;> decide)

/-- Claim C5, counterexample: the claim states that a theorem block-open
marker never followed by a close marker or another open marker is "silently
skipped and never indexed".  On `exUnterminated` (`:::{#thm-a}` followed only
by a body line) `parseCrossrefIndex` does register a descriptor for `thm-a`:
the inner cursor loop of `main.js` lines 269-292 simply runs to end of
document and `addLabel` (line 298) is called unconditionally. -/
theorem unterminated_theorem_counterexample :
    findLabel (parseCrossrefIndex exUnterminated) ("thm-a".data) =
      some ⟨"thm-a".data, Kind.theoremLike, "thm".data, 1, [], 0, 1⟩ := by
  rfl

/-- Claim C5 as amended: a theorem block-open marker never followed by a
close marker or another open marker is *not* skipped — the block is deemed
closed at end of document and the theorem scan registers a descriptor for its
label: kind theorem-like, starting at the open-marker line, numbered with the
next per-category counter value. -/
theorem unterminated_theorem_indexed (s : List Char) (fuel i : Nat) (st : ParseState)
    (la : List Char)
    (hi : i < (jsSplitLines s).length)
    (hsta : thmStart? (jsTrim ((jsSplitLines s).getD i [])) = some la)
    (hafter : ∀ j, i < j → j < (jsSplitLines s).length →
      ¬ isThmEnd (jsTrim ((jsSplitLines s).getD j [])) ∧
      thmStart? (jsTrim ((jsSplitLines s).getD j [])) = none)
    (hnew : ¬ st.labels.any (fun d => d.label = la)) :
    ∃ d, findLabel (thmScanAux (jsSplitLines s) (buildLineOffsets s) s.length
        (fuel + 1) i st) la = some d ∧
      d.kind = Kind.theoremLike ∧ d.lineStart = i ∧
      d.number = getThmCount st (labelCategory la) + 1 := by
  obtain ⟨t, ht⟩ := thmInner_no_marker i ((jsSplitLines s).drop (i + 1)) (i + 1) [] i
    (fun m hm => by
      rw [getD_drop_add_lines]
      have hml : m < (jsSplitLines s).length - (i + 1) := by simpa using hm
      exact hafter (i + 1 + m) (by omega) (by omega))
  simp only [thmScanAux]
  rw [if_pos hi, hsta]
  dsimp only
  rw [ht]
  dsimp only
  simp only [Bool.false_and, Bool.false_eq_true, if_false]
  have hcursor : i + 1 + ((jsSplitLines s).drop (i + 1)).length + 1 =
      (jsSplitLines s).length + 1 := by
    simp only [List.length_drop]
    omega
  rw [hcursor, thmScanAux_ge _ _ _ _ _ _ (by omega)]
  rw [findLabel_addLabel_self_thm _ _ _ _ _ _ hnew]
  refine ⟨_, rfl, rfl, ?_, rfl⟩
  show offsetToLine (buildLineOffsets s) ((buildLineOffsets s).getD i 0) = i
  refine offsetToLine_getD_self (buildLineOffsets s) i (buildLineOffsets_pairwise s)
    (buildLineOffsets_head s) ?_
  rw [← jsSplitLines_length]
  exact hi

theorem unterminated_theorem_indexed_witness :
    ∃ d, findLabel (thmScanAux (jsSplitLines exUnterminated)
        (buildLineOffsets exUnterminated) exUnterminated.length 2 0 initState)
        ("thm-a".data) = some d ∧
      d.kind = Kind.theoremLike ∧ d.lineStart = 0 ∧
      d.number = getThmCount initState (labelCategory ("thm-a".data)) + 1 :=
  unterminated_theorem_indexed exUnterminated 1 0 initState ("thm-a".data)
    (by decide) (by decide)
    (by
      intro j h1 h2
      have hlen : (jsSplitLines exUnterminated).length = 2 := by decide
      rw [hlen] at h2
      interval_cases j
      exact ⟨by decide, by decide⟩)
    (by decide)

/-- Claim C7: two adjacent theorem blocks with no explicit close marker
between the first's open and the second's open: the first block's descriptor
span ends exactly one line before the second block's open-marker line
(implicit close by next open), both labels are registered, and their numbers
are independently scoped per category — each is one more than the number of
previously registered labels of its own category (so from a fresh state,
`thm-a` becomes Theorem 1 and `lem-b` becomes Lemma 1). -/
theorem adjacent_theorem_blocks (s : List Char) (fuel i j : Nat) (st : ParseState)
    (la lb : List Char)
    (hij : i < j) (hj : j < (jsSplitLines s).length)
    (hsta : thmStart? (jsTrim ((jsSplitLines s).getD i [])) = some la)
    (hstb : thmStart? (jsTrim ((jsSplitLines s).getD j [])) = some lb)
    (hbetween : ∀ k, i < k → k < j →
      ¬ isThmEnd (jsTrim ((jsSplitLines s).getD k [])) ∧
      thmStart? (jsTrim ((jsSplitLines s).getD k [])) = none)
    (hna : ¬ st.labels.any (fun d => d.label = la))
    (hnb : ¬ st.labels.any (fun d => d.label = lb))
    (hab : ¬ la = lb) :
    ∃ da db,
      findLabel (thmScanAux (jsSplitLines s) (buildLineOffsets s) s.length
        (fuel + 2) i st) la = some da ∧
      findLabel (thmScanAux (jsSplitLines s) (buildLineOffsets s) s.length
        (fuel + 2) i st) lb = some db ∧
      da.lineStart = i ∧ da.lineEnd = j - 1 ∧
      da.number = getThmCount st (labelCategory la) + 1 ∧
      db.lineStart = j ∧
      db.number = (if labelCategory lb = labelCategory la then
        getThmCount st (labelCategory la) + 2
        else getThmCount st (labelCategory lb) + 1) := by
  have hi : i < (jsSplitLines s).length := lt_trans hij hj
  have hoffslen : (jsSplitLines s).length = (buildLineOffsets s).length :=
    jsSplitLines_length s
  have hjoffs : j < (buildLineOffsets s).length := by omega
  have hioffs : i < (buildLineOffsets s).length := by omega
  have hstrict := buildLineOffsets_pairwise s
  have hhead := buildLineOffsets_head s
  have hlsA0 : offsetToLine (buildLineOffsets s) ((buildLineOffsets s).getD i 0) = i :=
    offsetToLine_getD_self _ i hstrict hhead hioffs
  have hltij : (buildLineOffsets s).getD i 0 < (buildLineOffsets s).getD j 0 :=
    getD_strict_of_pairwise _ hstrict i j hij hjoffs
  have hmax2 : max ((buildLineOffsets s).getD i 0) ((buildLineOffsets s).getD j 0 - 1) =
      (buildLineOffsets s).getD j 0 - 1 := by omega
  have hleA0 : offsetToLine (buildLineOffsets s) ((buildLineOffsets s).getD j 0 - 1) =
      j - 1 :=
    offsetToLine_getD_pred _ j hstrict hhead (by omega) hjoffs
  have hlsB0 : offsetToLine (buildLineOffsets s) ((buildLineOffsets s).getD j 0) = j :=
    offsetToLine_getD_self _ j hstrict hhead hjoffs
  -- the inner cursor loop of the block opened at line i stops at line j
  obtain ⟨ta, hta⟩ := thmInner_until_start i ((jsSplitLines s).drop (i + 1))
    (j - i - 1) (i + 1) [] i
    (by simp only [List.length_drop]; omega)
    (fun k hk => by
      rw [getD_drop_add_lines]
      exact hbetween (i + 1 + k) (by omega) (by omega))
    (by
      rw [getD_drop_add_lines]
      have hjj : i + 1 + (j - i - 1) = j := by omega
      rw [hjj, hstb]
      rfl)
  have hm1 : i + 1 + (j - i - 1) - 1 = j - 1 := by omega
  have hmaxi : max i (j - 1) = j - 1 := by omega
  rw [hm1, hmaxi] at hta
  -- the descriptor registered for the first block
  have hfindA : findLabel (addLabel (buildLineOffsets s) st la Kind.theoremLike
      ((buildLineOffsets s).getD i 0) ((buildLineOffsets s).getD j 0) ta) la =
      some ⟨la, Kind.theoremLike, labelCategory la,
        getThmCount st (labelCategory la) + 1, ta, i, j - 1⟩ := by
    rw [findLabel_addLabel_self_thm _ _ _ _ _ _ hna, hmax2, hlsA0, hleA0]
  have hanyA : ((addLabel (buildLineOffsets s) st la Kind.theoremLike
      ((buildLineOffsets s).getD i 0) ((buildLineOffsets s).getD j 0) ta).labels.any
        (fun d => d.label = lb)) = false := by
    rw [any_label_addLabel _ _ _ _ _ _ _ _ hab]
    revert hnb
    cases st.labels.any (fun d => d.label = lb) <;> simp
  suffices hmain : ∀ st2 : ParseState,
      (∃ da2, findLabel st2 la = some da2 ∧
        coreEq da2 ⟨la, Kind.theoremLike, labelCategory la,
          getThmCount st (labelCategory la) + 1, ta, i, j - 1⟩) →
      ((st2.labels.any (fun d => d.label = lb)) = false) →
      (∀ c, getThmCount st2 c = getThmCount (addLabel (buildLineOffsets s) st la
        Kind.theoremLike ((buildLineOffsets s).getD i 0)
        ((buildLineOffsets s).getD j 0) ta) c) →
      ∃ da db,
        findLabel (thmScanAux (jsSplitLines s) (buildLineOffsets s) s.length
          (fuel + 1) j st2) la = some da ∧
        findLabel (thmScanAux (jsSplitLines s) (buildLineOffsets s) s.length
          (fuel + 1) j st2) lb = some db ∧
        da.lineStart = i ∧ da.lineEnd = j - 1 ∧
        da.number = getThmCount st (labelCategory la) + 1 ∧
        db.lineStart = j ∧
        db.number = (if labelCategory lb = labelCategory la then
          getThmCount st (labelCategory la) + 2
          else getThmCount st (labelCategory lb) + 1) by
    simp only [thmScanAux]
    rw [if_pos hi, hsta]
    dsimp only
    rw [hta]
    dsimp only
    have hj1 : j - 1 + 1 = j := by omega
    rw [hj1, if_pos hjoffs]
    simp only [Bool.true_and]
    by_cases htae : ta.isEmpty
    · rw [if_pos htae]
      by_cases hfb : ¬ (jsTrim ((jsSplitLines s).getD (i + 1) [])).isEmpty &&
          (thmStart? (jsTrim ((jsSplitLines s).getD (i + 1) []))).isNone &&
          ¬ isThmEnd (jsTrim ((jsSplitLines s).getD (i + 1) []))
      · rw [if_pos hfb]
        refine hmain _ ?_ ?_ ?_
        · obtain ⟨da2, hf2, hc2, _⟩ :=
            descKept_patchTitle (addLabel (buildLineOffsets s) st la Kind.theoremLike
              ((buildLineOffsets s).getD i 0) ((buildLineOffsets s).getD j 0) ta) la
              (jsTrim (stripHashPre (jsTrim ((jsSplitLines s).getD (i + 1) [])))) la
              _ hfindA
          exact ⟨da2, hf2, hc2⟩
        · show ((patchTitle _ la _).any (fun d => d.label = lb)) = false
          rw [any_label_of_forall2 _ _ lb (patchTitle_forall2 _ la _)]
          exact hanyA
        · intro c
          rfl
      · rw [if_neg hfb]
        refine hmain _ ⟨_, hfindA, coreEq_refl _⟩ hanyA (fun c => rfl)
    · rw [if_neg htae]
      refine hmain _ ⟨_, hfindA, coreEq_refl _⟩ hanyA (fun c => rfl)
  -- the step at line j from an arbitrary state that kept the first descriptor
  intro st2 hP1 hP2 hP3
  obtain ⟨da2, hda2, hcore2⟩ := hP1
  simp only [thmScanAux]
  rw [if_pos hj, hstb]
  dsimp only
  have hnb3 : ¬ st2.labels.any (fun d => d.label = lb) := by
    rw [hP2]
    simp
  have hfindB := findLabel_addLabel_self_thm (buildLineOffsets s) st2 lb
    ((buildLineOffsets s).getD j 0)
    (if (thmInner j ((jsSplitLines s).drop (j + 1)) (j + 1) [] j).2.1 + 1 <
        (buildLineOffsets s).length then
      (buildLineOffsets s).getD
        ((thmInner j ((jsSplitLines s).drop (j + 1)) (j + 1) [] j).2.1 + 1) 0
    else s.length)
    (thmInner j ((jsSplitLines s).drop (j + 1)) (j + 1) [] j).1 hnb3
  have hfindA3 := findLabel_addLabel_kept (buildLineOffsets s) st2 lb Kind.theoremLike
    ((buildLineOffsets s).getD j 0)
    (if (thmInner j ((jsSplitLines s).drop (j + 1)) (j + 1) [] j).2.1 + 1 <
        (buildLineOffsets s).length then
      (buildLineOffsets s).getD
        ((thmInner j ((jsSplitLines s).drop (j + 1)) (j + 1) [] j).2.1 + 1) 0
    else s.length)
    (thmInner j ((jsSplitLines s).drop (j + 1)) (j + 1) [] j).1 la da2 hda2
  have hnumB : getThmCount st2 (labelCategory lb) + 1 =
      (if labelCategory lb = labelCategory la then
        getThmCount st (labelCategory la) + 2
        else getThmCount st (labelCategory lb) + 1) := by
    rw [hP3, getThmCount_addLabel_thm _ _ _ _ _ _ hna]
    by_cases hc : labelCategory lb = labelCategory la
    · rw [if_pos hc, if_pos hc]
    · rw [if_neg hc, if_neg hc]
  set st3 := addLabel (buildLineOffsets s) st2 lb Kind.theoremLike
    ((buildLineOffsets s).getD j 0)
    (if (thmInner j ((jsSplitLines s).drop (j + 1)) (j + 1) [] j).2.1 + 1 <
        (buildLineOffsets s).length then
      (buildLineOffsets s).getD
        ((thmInner j ((jsSplitLines s).drop (j + 1)) (j + 1) [] j).2.1 + 1) 0
    else s.length)
    (thmInner j ((jsSplitLines s).drop (j + 1)) (j + 1) [] j).1 with hst3
  have hkept : descKept st3
      (thmScanAux (jsSplitLines s) (buildLineOffsets s) s.length fuel
        ((thmInner j ((jsSplitLines s).drop (j + 1)) (j + 1) [] j).2.2.1 + 1)
        (if (thmInner j ((jsSplitLines s).drop (j + 1)) (j + 1) [] j).2.2.2 &&
            (thmInner j ((jsSplitLines s).drop (j + 1)) (j + 1) [] j).1.isEmpty then
          if ¬ (jsTrim ((jsSplitLines s).getD (j + 1) [])).isEmpty &&
              (thmStart? (jsTrim ((jsSplitLines s).getD (j + 1) []))).isNone &&
              ¬ isThmEnd (jsTrim ((jsSplitLines s).getD (j + 1) [])) then
            { st3 with labels := (patchTitle st3.labels lb
                (jsTrim (stripHashPre (jsTrim ((jsSplitLines s).getD (j + 1) []))))) }
          else st3
        else st3)) := by
    refine descKept_trans _ _ _ ?_ (thmScanAux_kept _ _ _ _ _ _)
    by_cases h1 : (thmInner j ((jsSplitLines s).drop (j + 1)) (j + 1) [] j).2.2.2 &&
        (thmInner j ((jsSplitLines s).drop (j + 1)) (j + 1) [] j).1.isEmpty
    · rw [if_pos h1]
      by_cases h2 : ¬ (jsTrim ((jsSplitLines s).getD (j + 1) [])).isEmpty &&
          (thmStart? (jsTrim ((jsSplitLines s).getD (j + 1) []))).isNone &&
          ¬ isThmEnd (jsTrim ((jsSplitLines s).getD (j + 1) []))
      · rw [if_pos h2]
        exact descKept_patchTitle _ _ _
      · rw [if_neg h2]
        exact descKept_refl _
    · rw [if_neg h1]
      exact descKept_refl _
  obtain ⟨da, hfa, hca, _⟩ := hkept la da2 hfindA3
  obtain ⟨db, hfb2, hcb, _⟩ := hkept lb _ hfindB
  refine ⟨da, db, hfa, hfb2, ?_, ?_, ?_, ?_, ?_⟩
  · exact (hca.2.2.2.2.1).trans hcore2.2.2.2.2.1
  · exact (hca.2.2.2.2.2).trans hcore2.2.2.2.2.2
  · exact (hca.2.2.2.1).trans hcore2.2.2.2.1
  · exact (hcb.2.2.2.2.1).trans hlsB0
  · exact (hcb.2.2.2.1).trans hnumB

theorem adjacent_theorem_blocks_witness :
    (0 : Nat) < 2 ∧ 2 < (jsSplitLines exAdjacent).length ∧
    thmStart? (jsTrim ((jsSplitLines exAdjacent).getD 0 [])) = some ("thm-a".data) ∧
    thmStart? (jsTrim ((jsSplitLines exAdjacent).getD 2 [])) = some ("lem-b".data) ∧
    (∃ da db,
      findLabel (thmScanAux (jsSplitLines exAdjacent) (buildLineOffsets exAdjacent)
        exAdjacent.length 5 0 initState) ("thm-a".data) = some da ∧
      findLabel (thmScanAux (jsSplitLines exAdjacent) (buildLineOffsets exAdjacent)
        exAdjacent.length 5 0 initState) ("lem-b".data) = some db ∧
      da.lineStart = 0 ∧ da.lineEnd = 1 ∧
      da.number = getThmCount initState (labelCategory ("thm-a".data)) + 1 ∧
      db.lineStart = 2 ∧
      db.number = (if labelCategory ("lem-b".data) = labelCategory ("thm-a".data) then
        getThmCount initState (labelCategory ("thm-a".data)) + 2
        else getThmCount initState (labelCategory ("lem-b".data)) + 1)) :=
  ⟨by decide, by decide, by decide, by decide,
    adjacent_theorem_blocks exAdjacent 3 0 2 initState ("thm-a".data) ("lem-b".data)
      (by decide) (by decide) (by decide) (by decide)
      (by
        intro k h1 h2
        interval_cases k
        exact ⟨by decide, by decide⟩)
      (by decide) (by decide) (by decide)⟩
